import Mathlib

/-!
Shallow embedding of the SankeyDrawer DSL parsing core
(`app/src/lib/dsl-parser.ts`) and proofs about it.

Modelling conventions:
* strings are `List Char` (`Str`); each JavaScript string method used by the
  source (`trim`, `split`, `startsWith`, `includes`, `toLowerCase`,
  `replace(/\s+/g,'_')`, …) is embedded as a recursive function;
* JavaScript numbers are `ℚ` with exact arithmetic; `NaN` is `Option.none`
  (IEEE-754 binary rounding, `Infinity` literals and exponent re-rendering of
  huge values are outside the model and are noted at the definitions
  concerned);
* the ad-hoc regular expressions of the source are embedded by functions that
  implement their match semantics (lazy leading group, greedy tails) on the
  trimmed lines they are applied to.
-/

set_option linter.unusedVariables false

/- Batteries marks the arithmetic on `Rat` `@[irreducible]`; restore the
default reducibility inside this file so that concrete runs of the embedded
parser can be checked by `decide`. -/
attribute [local semireducible] Rat.mul Rat.add Rat.sub Rat.inv Rat.ofScientific

namespace Sankey

/-- Strings as lists of characters. -/
abbrev Str : Type := List Char

/-- Convert a Lean string literal into the model's string type. -/
def str (s : String) : Str := s.data

/-- JavaScript `\s` for the ASCII range (space, tab, newline, carriage
return, vertical tab, form feed). -/
def jsIsWs (c : Char) : Bool :=
  c == ' ' || c == '\t' || c == '\n' || c == '\r' || c.toNat == 11 || c.toNat == 12

/-- JavaScript `.` in a regex without the `s` flag: any character except the
line terminators LF, CR, LS (U+2028) and PS (U+2029). -/
def jsDot (c : Char) : Bool :=
  !(c == '\n' || c == '\r' || c.toNat == 8232 || c.toNat == 8233)

/-- JavaScript `String.prototype.trim`. -/
def jsTrim (s : Str) : Str :=
  ((s.dropWhile jsIsWs).reverse.dropWhile jsIsWs).reverse

/-- JavaScript `String.prototype.startsWith`. -/
def jsStartsWith : Str → Str → Bool
  | _, [] => true
  | [], _ :: _ => false
  | c :: cs, d :: ds => c == d && jsStartsWith cs ds

/-- JavaScript `String.prototype.endsWith`. -/
def jsEndsWith (s suf : Str) : Bool := jsStartsWith s.reverse suf.reverse

/-- JavaScript `String.prototype.includes`. -/
def jsIncludes : Str → Str → Bool
  | [], sub => jsStartsWith [] sub
  | c :: cs, sub => jsStartsWith (c :: cs) sub || jsIncludes cs sub

/-- ASCII lower-casing of one character (model of JS `toLowerCase`). -/
def jsToLowerChar (c : Char) : Char :=
  if 'A' ≤ c ∧ c ≤ 'Z' then Char.ofNat (c.toNat + 32) else c

/-- JavaScript `String.prototype.toLowerCase` (ASCII model). -/
def jsToLower (s : Str) : Str := s.map jsToLowerChar

/-- JavaScript `String.prototype.split` with a single-character separator. -/
def splitChar (sep : Char) : Str → List Str
  | [] => [[]]
  | c :: cs =>
    match splitChar sep cs with
    | [] => [[c]]
    | t :: ts => if c = sep then [] :: t :: ts else (c :: t) :: ts

/-- `Array.prototype.join('\n')` style joining. -/
def joinChar (sep : Char) : List Str → Str
  | [] => []
  | [l] => l
  | l :: l2 :: ls => l ++ sep :: joinChar sep (l2 :: ls)

/-- Does the string contain the given character. -/
def strContainsChar (s : Str) (c : Char) : Bool := s.any (fun d => d == c)

/-- Numeric value of a decimal digit character. -/
def digitVal (c : Char) : ℕ := c.toNat - '0'.toNat

/-- Value of a string of decimal digits. -/
def digitsToNat (s : Str) : ℕ := s.foldl (fun a c => a * 10 + digitVal c) 0

/-- Exponent part of a JS float literal after the `e`/`E`: an optional sign
followed by digits; an `e` not followed by digits is not consumed
(`parseFloat` keeps the longest valid prefix, so the exponent defaults to 0). -/
def expSigned (rest : Str) : ℤ :=
  match rest with
  | '-' :: rr => if rr.takeWhile Char.isDigit = [] then 0 else -(digitsToNat (rr.takeWhile Char.isDigit) : ℤ)
  | '+' :: rr => if rr.takeWhile Char.isDigit = [] then 0 else (digitsToNat (rr.takeWhile Char.isDigit) : ℤ)
  | rr => if rr.takeWhile Char.isDigit = [] then 0 else (digitsToNat (rr.takeWhile Char.isDigit) : ℤ)

/-- Exponent of a JS float literal: `e`/`E` marker plus signed digits. -/
def expPart (r : Str) : ℤ :=
  match r with
  | 'e' :: rest => expSigned rest
  | 'E' :: rest => expSigned rest
  | _ => 0

/-- JavaScript `parseFloat`: skip leading whitespace, parse an optional sign,
a decimal mantissa and an optional exponent, ignoring any trailing junk.
Returns `none` for `NaN`.  (The special literal `Infinity`, which `parseFloat`
also accepts, has no rational value and is outside the model.) -/
def jsParseFloat (s : Str) : Option ℚ :=
  let s1 := s.dropWhile jsIsWs
  let sgnRest : ℚ × Str :=
    match s1 with
    | '-' :: r => (-1, r)
    | '+' :: r => (1, r)
    | _ => (1, s1)
  let s2 := sgnRest.2
  let d1 := s2.takeWhile Char.isDigit
  let r1 := s2.dropWhile Char.isDigit
  let d2r2 : Str × Str :=
    match r1 with
    | '.' :: r => (r.takeWhile Char.isDigit, r.dropWhile Char.isDigit)
    | _ => ([], r1)
  let d2 := d2r2.1
  if d1 = [] ∧ d2 = [] then none
  else
    let mant : ℚ := (digitsToNat d1 : ℚ) + (digitsToNat d2 : ℚ) / (10 : ℚ) ^ d2.length
    some (sgnRest.1 * mant * (10 : ℚ) ^ expPart d2r2.2)

/-- Digit-or-dot character class `[\d.]` of the suffix regex. -/
def isDigitDot (c : Char) : Bool := c.isDigit || c == '.'

/-- Multiplier of a recognized magnitude suffix (case-insensitive), `none`
when the remainder is not a suffix (so the suffix regex as a whole fails). -/
def suffixFactor (suf : Str) : Option ℚ :=
  let l := jsToLower suf
  if l = [] then some 1
  else if l = str "k" then some 1000
  else if l = str "m" ∨ l = str "million" then some 1000000
  else if l = str "b" ∨ l = str "bn" ∨ l = str "billion" then some 1000000000
  else none

/-- `parseNumber` from the source: strip `$`, `,` and whitespace, try
`^([\d.]+)\s*(k|m|b|bn|million|billion)?$` (case-insensitive; after cleaning
the string contains no whitespace, so `\s*` is vacuous), and fall back to
`parseFloat` on the cleaned string. -/
def parseNumber (s : Str) : Option ℚ :=
  let cleaned := jsTrim (s.filter (fun c => !(c == '$' || c == ',' || jsIsWs c)))
  let dd := cleaned.takeWhile isDigitDot
  let suf := cleaned.dropWhile isDigitDot
  if dd ≠ [] then
    match suffixFactor suf with
    | some f => (jsParseFloat dd).map (· * f)
    | none => jsParseFloat cleaned
  else jsParseFloat cleaned

/-- Rendering fuel-based decimal digits of a natural number. -/
def natToStrAux : ℕ → ℕ → Str
  | 0, _ => []
  | fuel + 1, n => if n < 10 then [Char.ofNat (48 + n)] else natToStrAux fuel (n / 10) ++ [Char.ofNat (48 + n % 10)]

/-- Decimal rendering of a natural number. -/
def natToStr (n : ℕ) : Str := natToStrAux (n + 1) n

/-- `toFixed(0)` per ECMA-262: for negative input render `-` and the absolute
value; pick the integer closest to the magnitude, ties towards the larger
integer. -/
def roundTiesUp (q : ℚ) : ℕ := (⌊q + 1 / 2⌋).toNat

/-- JavaScript `Number.prototype.toFixed(0)`. -/
def jsToFixed0 (q : ℚ) : Str :=
  if q < 0 then '-' :: natToStr (roundTiesUp (-q)) else natToStr (roundTiesUp q)

/-- Fractional digits of a rational in `[0,1)`, up to `fuel` places (the model
of JS number printing, restricted to terminating decimals). -/
def fracDigits : ℕ → ℚ → Str
  | 0, _ => []
  | fuel + 1, f =>
    if f = 0 then []
    else Char.ofNat (48 + (⌊f * 10⌋).toNat) :: fracDigits fuel (f * 10 - ⌊f * 10⌋)

/-- Model of JavaScript number-to-string (template literals `${value}`) for
finite-decimal rationals: sign, integer digits, then a `.` and the fraction
digits when the value is not an integer.  (JS prints the shortest decimal
that round-trips through the IEEE-754 double; on terminating decimals of at
most 30 places the two agree.) -/
def numToString (q : ℚ) : Str :=
  let m := |q|
  let intPart := natToStr (⌊m⌋).toNat
  let fr := fracDigits 30 (m - ⌊m⌋)
  (if q < 0 then ['-'] else []) ++ intPart ++ (if fr = [] then [] else '.' :: fr)

/-- `/^(nan|null|undefined|n\/a|na|none|--?)$/i` — the invalid-comparison-token
set. -/
def invalidComparisonToken (s : Str) : Bool :=
  let l := jsToLower s
  l = str "nan" || l = str "null" || l = str "undefined" || l = str "n/a" ||
    l = str "na" || l = str "none" || l = str "-" || l = str "--"

/-- `sanitizeComparisonLabel` from the source. -/
def sanitizeComparisonLabel (v : Option Str) : Option Str :=
  match v with
  | none => none
  | some s =>
    let trimmed := jsTrim s
    if trimmed = [] then none
    else if invalidComparisonToken trimmed then none
    else some trimmed

/-- `/[a-zA-Z]/.test` on a string. -/
def hasLetter (s : Str) : Bool := s.any Char.isAlpha

/-- `parseComparisonFields` from the source; the pair is
`(previousValue, comparisonValue)`. -/
def parseComparisonFields (value : ℚ) (rawComparison : Option Str) : Option ℚ × Option Str :=
  match sanitizeComparisonLabel rawComparison with
  | none => (none, none)
  | some comparison =>
    let isStringLabel := jsStartsWith comparison (str "+") || jsEndsWith comparison (str "%") ||
      jsStartsWith comparison (str "-")
    if isStringLabel then (none, some comparison)
    else
      match parseNumber comparison with
      | some previous =>
        if previous ≠ 0 then
          let diff := value - previous
          let percent := jsToFixed0 (diff / previous * 100)
          let sign := if 0 ≤ diff then str "+" else []
          (some previous, some (sign ++ percent ++ str "%"))
        else if hasLetter comparison then (none, some comparison)
        else (none, none)
      | none =>
        if hasLetter comparison then (none, some comparison)
        else (none, none)

/-- Node categories of `SankeyNode['category']`. -/
inductive NodeCategory where
  | revenue
  | expense
  | profit
  | neutral
deriving DecidableEq, Repr

/-- `categorizeNode` from the source (revenue keywords are tested first,
then expense, then profit; in the revenue test `&&` binds tighter than
`||`, so the `!includes('net')` guard applies to `income` only). -/
def categorizeNode (name : Str) : NodeCategory :=
  let lower := jsToLower name
  if jsIncludes lower (str "revenue") || jsIncludes lower (str "sales") ||
      (jsIncludes lower (str "income") && !jsIncludes lower (str "net")) then .revenue
  else if jsIncludes lower (str "cost") || jsIncludes lower (str "expense") ||
      jsIncludes lower (str "cogs") || jsIncludes lower (str "tax") ||
      jsIncludes lower (str "depreciation") || jsIncludes lower (str "amortization") then .expense
  else if jsIncludes lower (str "profit") || jsIncludes lower (str "net income") ||
      jsIncludes lower (str "earnings") || jsIncludes lower (str "ebit") ||
      jsIncludes lower (str "ebitda") then .profit
  else .neutral

/-- One pass of `replace(/\s+/g, '_')`: the flag records whether the previous
character was inside a whitespace run (whose `_` has already been emitted). -/
def collapseWsAux : Bool → Str → Str
  | _, [] => []
  | inRun, c :: cs =>
    if jsIsWs c then
      if inRun then collapseWsAux true cs else '_' :: collapseWsAux true cs
    else c :: collapseWsAux false cs

/-- The derived node id: `name.toLowerCase().replace(/\s+/g, '_')`. -/
def slugId (name : Str) : Str := collapseWsAux false (jsToLower name)

/-- `SankeyNode` (`app/src/types/sankey`): fields used by the parsing core. -/
structure SankeyNode where
  id : Str
  name : Str
  color : Option Str
  category : NodeCategory
deriving DecidableEq, Repr

/-- `SankeyLink`: source/target are node-id strings in `parseDSL` output. -/
structure SankeyLink where
  source : Str
  target : Str
  value : ℚ
  previousValue : Option ℚ
  comparisonValue : Option Str
deriving DecidableEq, Repr

/-- `SankeyData`. -/
structure SankeyData where
  nodes : List SankeyNode
  links : List SankeyLink
deriving DecidableEq, Repr

/-- `ParsedFlowLine` from the source. -/
structure ParsedFlowLine where
  sourceName : Str
  targetName : Str
  value : ℚ
  previousValue : Option ℚ
  comparisonValue : Option Str
deriving DecidableEq, Repr

/-- `createNode` from the source. -/
def createNode (name : Str) (color : Option Str) : SankeyNode :=
  { id := slugId name, name := name, color := color, category := categorizeNode name }

/-- Hex digit class `[a-fA-F0-9]`. -/
def isHexDigit (c : Char) : Bool :=
  c.isDigit || (decide ('a' ≤ c) && decide (c ≤ 'f')) || (decide ('A' ≤ c) && decide (c ≤ 'F'))

/-- Tail of the color-directive regex after the lazy name group:
`\s*:\s*#?([a-fA-F0-9]{6}|[a-fA-F0-9]{3})$`.  `:` and `#` are not whitespace
and whitespace is not a hex digit, so greedy matching here is deterministic. -/
def colorTail (t : Str) : Option Str :=
  match t.dropWhile jsIsWs with
  | ':' :: r =>
    let r1 := r.dropWhile jsIsWs
    let r2 := match r1 with | '#' :: rr => rr | _ => r1
    if (r2.length = 6 ∨ r2.length = 3) ∧ r2.all isHexDigit then some r2 else none
  | _ => none

/-- Scan for the lazy group `(.+?)` of the color regex: the shortest nonempty
prefix of dot-class characters whose remainder matches `colorTail`.  A line
terminator aborts the scan, since JS `.` cannot match it and the group must
cover every split point. -/
def colorMatchAux : Str → Str → Option (Str × Str)
  | _, [] => none
  | acc, c :: cs =>
    if jsDot c then
      match colorTail cs with
      | some hex => some ((c :: acc).reverse, hex)
      | none => colorMatchAux (c :: acc) cs
    else none

/-- `trimmed.match(/^(.+?)\s*:\s*#?([a-fA-F0-9]{6}|[a-fA-F0-9]{3})$/)`,
returning (name group, hex group). -/
def colorMatch (s : Str) : Option (Str × Str) := colorMatchAux [] s

/-- Tail of the bracket-flow regex after the lazy source group:
`\s*\[([^\]]+)\]\s*(.+)$`.  Applied to trimmed lines (which do not end in
whitespace), so the greedy `\s*(.+)$` coincides with "skip whitespace, take
the nonempty rest" — provided that rest consists of dot-class characters:
`.` cannot match a line terminator, and shortening the `\s*` backtrack only
grows the target group, so one terminator in it kills every split.  The
bracket group `[^\]]+` is a negated class and may hold any non-`]`
character, line terminators included. -/
def flowTail (t : Str) : Option (Str × Str) :=
  match t.dropWhile jsIsWs with
  | '[' :: r =>
    let content := r.takeWhile (fun c => !(c == ']'))
    match r.dropWhile (fun c => !(c == ']')) with
    | ']' :: rest =>
      if content = [] then none
      else
        let tgt := rest.dropWhile jsIsWs
        if tgt = [] then none
        else if tgt.all jsDot then some (content, tgt) else none
    | _ => none
  | _ => none

/-- Scan for the lazy source group `(.+?)` of the bracket-flow regex; a line
terminator in the prefix aborts the scan (JS `.` cannot match it). -/
def flowMatchAux : Str → Str → Option (Str × Str × Str)
  | _, [] => none
  | acc, c :: cs =>
    if jsDot c then
      match flowTail cs with
      | some (content, tgt) => some ((c :: acc).reverse, content, tgt)
      | none => flowMatchAux (c :: acc) cs
    else none

/-- `trimmed.match(/^(.+?)\s*\[([^\]]+)\]\s*(.+)$/)`, returning
(source group, bracket content, target group). -/
def flowMatch (s : Str) : Option (Str × Str × Str) := flowMatchAux [] s

/-- Trailing groups of the arrow regex after the lazy target group:
`\s+([^\s]+)(?:\s+([^\s]+))?$` — whitespace then exactly one or two
whitespace-separated tokens reaching the end. -/
def arrowGroups (t : Str) : Option (Str × Option Str) :=
  match t with
  | [] => none
  | c :: _ =>
    if jsIsWs c then
      let t1 := t.dropWhile jsIsWs
      let tok3 := t1.takeWhile (fun d => !jsIsWs d)
      let rest := t1.dropWhile (fun d => !jsIsWs d)
      if tok3 = [] then none
      else if rest = [] then some (tok3, none)
      else
        let r2 := rest.dropWhile jsIsWs
        let tok4 := r2.takeWhile (fun d => !jsIsWs d)
        let r3 := r2.dropWhile (fun d => !jsIsWs d)
        if tok4 = [] then none
        else if r3 = [] then some (tok3, some tok4) else none
    else none

/-- Scan for the lazy target group `(.+?)` of the arrow regex; a line
terminator aborts the scan (JS `.` cannot match it). -/
def arrowInnerAux : Str → Str → Option (Str × Str × Option Str)
  | _, [] => none
  | acc, c :: cs =>
    if jsDot c then
      match arrowGroups cs with
      | some (tok3, tok4) => some ((c :: acc).reverse, tok3, tok4)
      | none => arrowInnerAux (c :: acc) cs
    else none

/-- `trimmed.match(/^(.+?)\s*->\s*(.+?)\s+([^\s]+)(?:\s+([^\s]+))?$/)`.
`-` is not whitespace, so after the lazy source group the `\s*->` part is
deterministic; on trimmed input the only regex matches our scan misses are
those whose target group is entirely whitespace, which `parseArrowFlowLine`
rejects via its empty-name check, with the same final outcome. -/
def arrowMatchAux : Str → Str → Option (Str × Str × Str × Option Str)
  | _, [] => none
  | acc, c :: cs =>
    if jsDot c then
      match cs.dropWhile jsIsWs with
      | '-' :: '>' :: r =>
        (match arrowInnerAux [] (r.dropWhile jsIsWs) with
         | some (g2, tok3, tok4) => some ((c :: acc).reverse, g2, tok3, tok4)
         | none => arrowMatchAux (c :: acc) cs)
      | _ => arrowMatchAux (c :: acc) cs
    else none

/-- The arrow-notation regex match. -/
def arrowMatch (s : Str) : Option (Str × Str × Str × Option Str) := arrowMatchAux [] s

/-- `parseArrowFlowLine` from the source. -/
def parseArrowFlowLine (trimmed : Str) : Option ParsedFlowLine :=
  match arrowMatch trimmed with
  | none => none
  | some (g1, g2, g3, g4) =>
    let sourceName := jsTrim g1
    let targetName := jsTrim g2
    match parseNumber g3 with
    | none => none
    | some value =>
      if sourceName = [] ∨ targetName = [] ∨ value ≤ 0 then none
      else
        let comp := parseComparisonFields value g4
        some ⟨sourceName, targetName, value, comp.1, comp.2⟩

/-- `parseCSVLine` from the source: quote-aware comma splitting; quotes
toggle, separators are unquoted commas, every field is trimmed. -/
def parseCSVLineAux : Str → Bool → Str → List Str
  | [], _, cur => [jsTrim cur.reverse]
  | c :: cs, inQ, cur =>
    if c == '"' then parseCSVLineAux cs (!inQ) cur
    else if c == ',' && !inQ then jsTrim cur.reverse :: parseCSVLineAux cs inQ []
    else parseCSVLineAux cs inQ (c :: cur)

/-- `parseCSVLine`. -/
def parseCSVLine (line : Str) : List Str := parseCSVLineAux line false []

/-- `split(/\s{2,}/)`: maximal whitespace runs of length at least two are
separators; `cur` and `pend` are the reversed current field and the reversed
pending whitespace run. -/
def splitWs2Aux : Str → Str → Str → List Str
  | [], cur, pend =>
    if 2 ≤ pend.length then [cur.reverse, []] else [(pend ++ cur).reverse]
  | c :: cs, cur, pend =>
    if jsIsWs c then splitWs2Aux cs cur (c :: pend)
    else if 2 ≤ pend.length then cur.reverse :: splitWs2Aux cs [c] []
    else splitWs2Aux cs (c :: (pend ++ cur)) []

/-- `trimmed.split(/\s{2,}/)`. -/
def splitWs2 (s : Str) : List Str := splitWs2Aux s [] []

/-- `parseDelimitedFlowLine` from the source: tab columns, else quote-aware
comma columns, else double-space columns; at least three columns required. -/
def parseDelimitedFlowLine (trimmed : Str) : Option ParsedFlowLine :=
  let columns0 : Option (List Str) :=
    if strContainsChar trimmed '\t' then
      let tabColumns := (splitChar '\t' trimmed).map jsTrim
      if 3 ≤ tabColumns.length then some tabColumns else none
    else none
  let columns1 : Option (List Str) :=
    match columns0 with
    | some cs => some cs
    | none =>
      if strContainsChar trimmed ',' then
        let csvColumns := (parseCSVLine trimmed).map jsTrim
        if 3 ≤ csvColumns.length then some csvColumns else none
      else none
  let columns2 : Option (List Str) :=
    match columns1 with
    | some cs => some cs
    | none =>
      let spacedColumns := ((splitWs2 trimmed).map jsTrim).filter (fun c => !c.isEmpty)
      if 3 ≤ spacedColumns.length then some spacedColumns else none
  match columns2 with
  | none => none
  | some cols =>
    let sourceName := jsTrim (cols.getD 0 [])
    let targetName := jsTrim (cols.getD 1 [])
    match parseNumber (cols.getD 2 []) with
    | none => none
    | some value =>
      if sourceName = [] ∨ targetName = [] ∨ value ≤ 0 then none
      else
        let comp := parseComparisonFields value (cols.get? 3)
        some ⟨sourceName, targetName, value, comp.1, comp.2⟩

/-- The bracket-notation branch of `parseDSL`'s loop body: trim the three
regex groups, split the bracket content at its first comma, and keep the
flow only when the value is a positive number. -/
def bracketFlow (g1 content0 g3 : Str) : Option ParsedFlowLine :=
  let sourceName := jsTrim g1
  let targetName := jsTrim g3
  let content := jsTrim content0
  if strContainsChar content ',' then
    let valStr := jsTrim (content.takeWhile (fun c => !(c == ',')))
    let compStr := jsTrim ((content.dropWhile (fun c => !(c == ','))).drop 1)
    match parseNumber valStr with
    | some value =>
      if 0 < value then
        let comp := parseComparisonFields value (some compStr)
        some ⟨sourceName, targetName, value, comp.1, comp.2⟩
      else none
    | none => none
  else
    match parseNumber content with
    | some value =>
      if 0 < value then some ⟨sourceName, targetName, value, none, none⟩ else none
    | none => none

/-- The mutable state of `parseDSL`'s line loop: the insertion-ordered
`Map<string, SankeyNode>` keyed by display name (every stored node's `name`
is its key, so the map is the node list with lookup by name), the link list,
and the `nodeColors` map. -/
structure ParseState where
  nodes : List SankeyNode
  links : List SankeyLink
  colors : List (Str × Str)
deriving Repr

/-- `Map.set` on an insertion-ordered association list. -/
def mapSet (m : List (Str × Str)) (k v : Str) : List (Str × Str) :=
  match m with
  | [] => [(k, v)]
  | (k', v') :: rest => if k' = k then (k, v) :: rest else (k', v') :: mapSet rest k v

/-- `Map.get` on an association list. -/
def mapGet (m : List (Str × Str)) (k : Str) : Option Str :=
  match m with
  | [] => none
  | (k', v) :: rest => if k' = k then some v else mapGet rest k

/-- `nodes.get(name)` — lookup by display name. -/
def findNodeByName (ns : List SankeyNode) (name : Str) : Option SankeyNode :=
  ns.find? (fun n => n.name == name)

/-- Node creation and link push for one accepted flow line. -/
def addFlow (st : ParseState) (f : ParsedFlowLine) : ParseState :=
  let nodes1 :=
    if (findNodeByName st.nodes f.sourceName).isSome then st.nodes
    else st.nodes ++ [createNode f.sourceName (mapGet st.colors f.sourceName)]
  let nodes2 :=
    if (findNodeByName nodes1 f.targetName).isSome then nodes1
    else nodes1 ++ [createNode f.targetName (mapGet st.colors f.targetName)]
  let sId := match findNodeByName nodes2 f.sourceName with
    | some n => n.id
    | none => slugId f.sourceName
  let tId := match findNodeByName nodes2 f.targetName with
    | some n => n.id
    | none => slugId f.targetName
  { st with nodes := nodes2,
            links := st.links ++ [⟨sId, tId, f.value, f.previousValue, f.comparisonValue⟩] }

/-- One iteration of `parseDSL`'s per-line loop. -/
def procLine (st : ParseState) (line : Str) : ParseState :=
  let trimmed := jsTrim line
  if trimmed.isEmpty then st
  else if jsStartsWith trimmed (str "//") || jsStartsWith trimmed (str "#") then st
  else
    match colorMatch trimmed with
    | some (g1, hex) =>
      let nodeName := jsTrim g1
      let color := if jsStartsWith hex (str "#") then hex else '#' :: hex
      { st with colors := mapSet st.colors nodeName color }
    | none =>
      let parsedFlow : Option ParsedFlowLine :=
        match flowMatch trimmed with
        | some (g1, content, g3) => bracketFlow g1 content g3
        | none =>
          match parseArrowFlowLine trimmed with
          | some f => some f
          | none => parseDelimitedFlowLine trimmed
      match parsedFlow with
      | some f => addFlow st f
      | none => st

/-- The aggregation key `` `${link.source}|${link.target}` ``. -/
def aggKey (l : SankeyLink) : Str := l.source ++ '|' :: l.target

/-- The merge performed on a key collision: the value is always summed; the
previous values are summed and the comparison label reset only when both
links carry a previous value. -/
def mergeLinks (existing l : SankeyLink) : SankeyLink :=
  match existing.previousValue, l.previousValue with
  | some p1, some p2 =>
    { existing with value := existing.value + l.value,
                    previousValue := some (p1 + p2),
                    comparisonValue := none }
  | _, _ => { existing with value := existing.value + l.value }

/-- `uniqueLinks.set`-style update of the insertion-ordered key map. -/
def aggUpd (acc : List (Str × SankeyLink)) (l : SankeyLink) : List (Str × SankeyLink) :=
  match acc with
  | [] => [(aggKey l, l)]
  | (k, e) :: rest =>
    if k = aggKey l then (k, mergeLinks e l) :: rest else (k, e) :: aggUpd rest l

/-- Step 1 of `parseDSL`'s post-processing: aggregate duplicate links by the
string key `source|target`, keeping first-occurrence order. -/
def aggregate (links : List SankeyLink) : List SankeyLink :=
  (links.foldl aggUpd []).map Prod.snd

/-- `validGraph.get(x)` — the adjacency derived from the accepted links (the
source keeps the adjacency map and the accepted list in lockstep, so the
list determines the map). -/
def neighbors (edges : List SankeyLink) (x : Str) : List Str :=
  (edges.filter (fun l => l.source == x)).map SankeyLink.target

/-- Iteration over a node's children inside `hasPath`'s depth-first search:
`rec` is the recursive call at the remaining fuel; the visited set is
threaded through the siblings exactly as the mutated JS `Set` is. -/
def dfsGo (rec : Str → List Str → Bool × List Str) : List Str → List Str → Bool × List Str
  | [], vis => (false, vis)
  | n :: ns, vis =>
    if n ∈ vis then dfsGo rec ns vis
    else
      let r := rec n vis
      if r.1 then r else dfsGo rec ns r.2

/-- `hasPath`'s recursion with explicit fuel: the JS recursion terminates
because the visited set grows; fuel strictly larger than the number of
unvisited nodes makes the fuel-exhaustion branch unreachable. -/
def hasPathDfs (edges : List SankeyLink) (tgt : Str) : ℕ → Str → List Str → Bool × List Str
  | 0, _, vis => (false, vis)
  | fuel + 1, frm, vis =>
    if frm = tgt then (true, vis)
    else dfsGo (hasPathDfs edges tgt fuel) (neighbors edges frm) (frm :: vis)

/-- `hasPath(from, to)` from the source, over the accepted-link adjacency.
The fuel `edges.length + 2` exceeds the number of distinct reachable nodes. -/
def hasPath (edges : List SankeyLink) (frm tgt : Str) : Bool :=
  (hasPathDfs edges tgt (edges.length + 2) frm []).1

/-- One iteration of the cycle-removal loop: drop self-loops, drop a link
whose addition would close a cycle, otherwise accept it. -/
def dagStep (acc : List SankeyLink) (l : SankeyLink) : List SankeyLink :=
  if l.source = l.target then acc
  else if hasPath acc l.target l.source then acc
  else acc ++ [l]

/-- Step 2 of `parseDSL`'s post-processing: greedy input-order cycle
removal. -/
def dagFilter (links : List SankeyLink) : List SankeyLink :=
  links.foldl dagStep []

/-- The state after `parseDSL`'s per-line loop. -/
def rawState (text : Str) : ParseState :=
  (splitChar '\n' text).foldl procLine ⟨[], [], []⟩

/-- `parseDSL` from the source. -/
def parseDSL (text : Str) : Option SankeyData :=
  let st := rawState text
  if st.nodes.isEmpty ∨ st.links.isEmpty then none
  else some { nodes := st.nodes, links := dagFilter (aggregate st.links) }

/-- `data.nodes.find(n => n.id === id)`. -/
def findNodeById (ns : List SankeyNode) (id : Str) : Option SankeyNode :=
  ns.find? (fun n => n.id == id)

/-- Name resolution in `serializeToDSL` (ids are strings throughout the
parsing core, so the numeric-index branch of the source is never taken). -/
def resolveName (ns : List SankeyNode) (id : Str) : Str :=
  match findNodeById ns id with
  | some n => n.name
  | none => id

/-- One flow line of `serializeToDSL`. -/
def serializeLink (ns : List SankeyNode) (l : SankeyLink) : Str :=
  let sourceName := resolveName ns l.source
  let targetName := resolveName ns l.target
  match l.previousValue with
  | some pv =>
    sourceName ++ str " [" ++ numToString l.value ++ str ", " ++ numToString pv ++ str "] " ++ targetName
  | none =>
    match l.comparisonValue with
    | some cv =>
      if cv ≠ [] then
        sourceName ++ str " [" ++ numToString l.value ++ str ", " ++ cv ++ str "] " ++ targetName
      else
        sourceName ++ str " [" ++ numToString l.value ++ str "] " ++ targetName
    | none =>
      sourceName ++ str " [" ++ numToString l.value ++ str "] " ++ targetName

/-- `serializeToDSL` from the source: color-directive lines for nodes with a
truthy color, a blank separator when any were emitted, then the flow lines. -/
def serializeToDSL (data : SankeyData) : Str :=
  let colorLines :=
    (data.nodes.filter (fun n => match n.color with | some c => !c.isEmpty | none => false)).map
      (fun n => n.name ++ str " :" ++ n.color.getD [])
  let headLines := if colorLines.isEmpty then colorLines else colorLines ++ [[]]
  let flowLines := data.links.map (serializeLink data.nodes)
  joinChar '\n' (headLines ++ flowLines)

/-- One data row of `parseCSV`: note that the produced link stores the raw
display names, not the derived node ids. -/
def csvRow (st : ParseState) (line : Str) : ParseState :=
  let cols := parseCSVLine line
  if cols.length < 3 then st
  else
    let sourceName := jsTrim (cols.getD 0 [])
    let targetName := jsTrim (cols.getD 1 [])
    match parseNumber (cols.getD 2 []) with
    | none => st
    | some value =>
      if sourceName = [] ∨ targetName = [] ∨ value ≤ 0 then st
      else
        let comp := parseComparisonFields value ((cols.get? 3).map jsTrim)
        let nodes1 :=
          if (findNodeByName st.nodes sourceName).isSome then st.nodes
          else st.nodes ++ [createNode sourceName none]
        let nodes2 :=
          if (findNodeByName nodes1 targetName).isSome then nodes1
          else nodes1 ++ [createNode targetName none]
        { st with nodes := nodes2,
                  links := st.links ++ [⟨sourceName, targetName, value, comp.1, comp.2⟩] }

/-- The data rows `parseCSV` iterates over. -/
def csvDataLines (text : Str) : List Str :=
  let lines := (splitChar '\n' text).filter (fun l => !(jsTrim l).isEmpty)
  let header := jsToLower (lines.getD 0 [])
  let hasHeader := jsIncludes header (str "from") || jsIncludes header (str "source") ||
    jsIncludes header (str "to") || jsIncludes header (str "target")
  if hasHeader then lines.drop 1 else lines

/-- The state after `parseCSV`'s row loop. -/
def csvState (text : Str) : ParseState :=
  (csvDataLines text).foldl csvRow ⟨[], [], []⟩

/-- `parseCSV` from the source: keep lines with nonempty trim, detect a
header by substring sniffing on the lowercased first line, then fold the
data rows.  No aggregation and no cycle removal are performed. -/
def parseCSV (text : Str) : Option SankeyData :=
  if ((splitChar '\n' text).filter (fun l => !(jsTrim l).isEmpty)).length < 2 then none
  else
    let st := csvState text
    if st.nodes.isEmpty ∨ st.links.isEmpty then none
    else some { nodes := st.nodes, links := st.links }

/-! ### Correctness of the depth-first reachability search -/

/-- The edge relation of a link list, read over node ids. -/
def stepRel (edges : List SankeyLink) (a b : Str) : Prop :=
  ∃ l ∈ edges, l.source = a ∧ l.target = b

theorem mem_neighbors_iff {edges : List SankeyLink} {a b : Str} :
    b ∈ neighbors edges a ↔ stepRel edges a b := by
  simp only [neighbors, List.mem_map, List.mem_filter, stepRel, beq_iff_eq]
  constructor
  · rintro ⟨l, ⟨hl, hs⟩, ht⟩
    exact ⟨l, hl, hs, ht⟩
  · rintro ⟨l, hl, hs, ht⟩
    exact ⟨l, ⟨hl, hs⟩, ht⟩

theorem dfsGo_true {rec : Str → List Str → Bool × List Str} {P : Str → Prop}
    (hrec : ∀ n vis, (rec n vis).1 = true → P n) :
    ∀ ns vis, (dfsGo rec ns vis).1 = true → ∃ n ∈ ns, P n := by
  intro ns
  induction ns with
  | nil => intro vis h; simp [dfsGo] at h
  | cons n ns ih =>
    intro vis h
    by_cases hm : n ∈ vis
    · simp only [dfsGo, if_pos hm] at h
      obtain ⟨n', hn', hp⟩ := ih _ h
      exact ⟨n', List.mem_cons_of_mem _ hn', hp⟩
    · simp only [dfsGo, if_neg hm] at h
      by_cases hb : (rec n vis).1 = true
      · exact ⟨n, List.mem_cons_self _ _, hrec _ _ hb⟩
      · rw [if_neg hb] at h
        obtain ⟨n', hn', hp⟩ := ih _ h
        exact ⟨n', List.mem_cons_of_mem _ hn', hp⟩

theorem hasPathDfs_sound {edges : List SankeyLink} {tgt : Str} :
    ∀ fuel frm vis, (hasPathDfs edges tgt fuel frm vis).1 = true →
      Relation.ReflTransGen (stepRel edges) frm tgt := by
  intro fuel
  induction fuel with
  | zero => intro frm vis h; simp [hasPathDfs] at h
  | succ fuel ih =>
    intro frm vis h
    by_cases he : frm = tgt
    · subst he; exact Relation.ReflTransGen.refl
    · simp only [hasPathDfs, if_neg he] at h
      obtain ⟨n, hn, hp⟩ := @dfsGo_true _ (fun n => Relation.ReflTransGen (stepRel edges) n tgt)
        (fun n vis h => ih n vis h) _ _ h
      exact Relation.ReflTransGen.head (mem_neighbors_iff.mp hn) hp

theorem dfsGo_vis_grow {rec : Str → List Str → Bool × List Str}
    (hrec : ∀ n vis, vis ⊆ (rec n vis).2) :
    ∀ ns vis, vis ⊆ (dfsGo rec ns vis).2 := by
  intro ns
  induction ns with
  | nil => intro vis; simp [dfsGo]
  | cons n ns ih =>
    intro vis
    by_cases hm : n ∈ vis
    · simpa only [dfsGo, if_pos hm] using ih vis
    · simp only [dfsGo, if_neg hm]
      by_cases hb : (rec n vis).1 = true
      · rw [if_pos hb]; exact hrec _ _
      · rw [if_neg hb]
        exact (hrec n vis).trans (ih _)

theorem hasPathDfs_vis_grow {edges : List SankeyLink} {tgt : Str} :
    ∀ fuel frm vis, vis ⊆ (hasPathDfs edges tgt fuel frm vis).2 := by
  intro fuel
  induction fuel with
  | zero => intro frm vis; simp [hasPathDfs]
  | succ fuel ih =>
    intro frm vis
    by_cases he : frm = tgt
    · simp [hasPathDfs, if_pos he]
    · simp only [hasPathDfs, if_neg he]
      exact (List.subset_cons_self _ _).trans (dfsGo_vis_grow (fun n v => ih n v) _ _)

theorem dfsGo_vis_new {rec : Str → List Str → Bool × List Str} {tgt : Str}
    (hrec : ∀ n vis x, x ∈ (rec n vis).2 → x ∈ vis ∨ x ≠ tgt) :
    ∀ ns vis x, x ∈ (dfsGo rec ns vis).2 → x ∈ vis ∨ x ≠ tgt := by
  intro ns
  induction ns with
  | nil => intro vis x h; simp only [dfsGo] at h; exact Or.inl h
  | cons n ns ih =>
    intro vis x h
    by_cases hm : n ∈ vis
    · simp only [dfsGo, if_pos hm] at h
      exact ih _ _ h
    · simp only [dfsGo, if_neg hm] at h
      by_cases hb : ((rec n vis).1 : Bool) = true
      · rw [if_pos hb] at h
        exact hrec _ _ _ h
      · rw [if_neg hb] at h
        rcases ih _ _ h with h' | h'
        · exact hrec _ _ _ h'
        · exact Or.inr h'

theorem hasPathDfs_vis_new {edges : List SankeyLink} {tgt : Str} :
    ∀ fuel frm vis x, x ∈ (hasPathDfs edges tgt fuel frm vis).2 → x ∈ vis ∨ x ≠ tgt := by
  intro fuel
  induction fuel with
  | zero => intro frm vis x h; simp only [hasPathDfs] at h; exact Or.inl h
  | succ fuel ih =>
    intro frm vis x h
    by_cases he : frm = tgt
    · simp only [hasPathDfs, if_pos he] at h; exact Or.inl h
    · simp only [hasPathDfs, if_neg he] at h
      rcases dfsGo_vis_new (fun n v y => ih n v y) _ _ _ h with h' | h'
      · rcases List.mem_cons.mp h' with rfl | h''
        · exact Or.inr he
        · exact Or.inl h''
      · exact Or.inr h'

/-- Count of universe nodes not yet visited: the termination measure of the
visited-set recursion. -/
def visMeasure (U vis : List Str) : ℕ := (U.toFinset \ vis.toFinset).card

theorem visMeasure_mono {U vis vis' : List Str} (h : vis ⊆ vis') :
    visMeasure U vis' ≤ visMeasure U vis := by
  apply Finset.card_le_card
  apply Finset.sdiff_subset_sdiff (le_refl _)
  intro x hx
  simp only [List.mem_toFinset] at hx ⊢
  exact h hx

theorem visMeasure_lt {U vis : List Str} {frm : Str} (hU : frm ∈ U) (hv : frm ∉ vis) :
    visMeasure U (frm :: vis) < visMeasure U vis := by
  apply Finset.card_lt_card
  constructor
  · apply Finset.sdiff_subset_sdiff (le_refl _)
    intro x hx
    simp only [List.toFinset_cons, Finset.mem_insert, List.mem_toFinset] at hx ⊢
    exact Or.inr hx
  · intro hsub
    have : frm ∈ U.toFinset \ vis.toFinset := by
      simp only [Finset.mem_sdiff, List.mem_toFinset]
      exact ⟨hU, hv⟩
    have h2 := hsub this
    simp [List.toFinset_cons] at h2

theorem dfsGo_false_inv {edges : List SankeyLink} {tgt : Str} {U : List Str} {fuel : ℕ}
    (IH : ∀ frm vis res, hasPathDfs edges tgt fuel frm vis = (false, res) → frm ∉ vis →
      visMeasure U (frm :: vis) < fuel →
      vis ⊆ res ∧ frm ∈ res ∧ (∀ v ∈ res, v ∉ vis → ∀ w, stepRel edges v w → w ∈ res)) :
    ∀ ns vis res, (∀ n ∈ ns, n ∈ U) → visMeasure U vis ≤ fuel →
      dfsGo (hasPathDfs edges tgt fuel) ns vis = (false, res) →
      vis ⊆ res ∧ (∀ n ∈ ns, n ∈ res) ∧
        (∀ v ∈ res, v ∉ vis → ∀ w, stepRel edges v w → w ∈ res) := by
  intro ns
  induction ns with
  | nil =>
    intro vis res _ _ h
    simp only [dfsGo, Prod.mk.injEq] at h
    refine ⟨h.2 ▸ List.Subset.refl _, by simp, ?_⟩
    intro v hv hnv
    exact absurd (h.2 ▸ hv) hnv
  | cons n ns ih =>
    intro vis res hns hm h
    by_cases hmem : n ∈ vis
    · simp only [dfsGo, if_pos hmem] at h
      obtain ⟨h1, h2, h3⟩ := ih vis res (fun x hx => hns x (List.mem_cons_of_mem _ hx)) hm h
      refine ⟨h1, ?_, h3⟩
      intro x hx
      rcases List.mem_cons.mp hx with rfl | hx'
      · exact h1 hmem
      · exact h2 x hx'
    · simp only [dfsGo, if_neg hmem] at h
      by_cases hb : ((hasPathDfs edges tgt fuel n vis).1 : Bool) = true
      · rw [if_pos hb] at h
        rw [h] at hb
        simp at hb
      · rw [if_neg hb] at h
        have hr : hasPathDfs edges tgt fuel n vis = (false, (hasPathDfs edges tgt fuel n vis).2) :=
          Prod.ext (Bool.eq_false_iff.mpr hb) rfl
        have hlt : visMeasure U (n :: vis) < fuel :=
          lt_of_lt_of_le (visMeasure_lt (hns n (List.mem_cons_self _ _)) hmem) hm
        obtain ⟨i1, i2, i3⟩ := IH n vis _ hr hmem hlt
        obtain ⟨j1, j2, j3⟩ := ih _ res (fun x hx => hns x (List.mem_cons_of_mem _ hx))
          (le_trans (visMeasure_mono i1) hm) h
        refine ⟨i1.trans j1, ?_, ?_⟩
        · intro x hx
          rcases List.mem_cons.mp hx with rfl | hx'
          · exact j1 i2
          · exact j2 x hx'
        · intro v hv hnv w hw
          by_cases hv2 : v ∈ (hasPathDfs edges tgt fuel n vis).2
          · exact j1 (i3 v hv2 hnv w hw)
          · exact j3 v hv hv2 w hw

theorem hasPathDfs_false_inv {edges : List SankeyLink} {tgt : Str} {U : List Str}
    (hU : ∀ l ∈ edges, l.target ∈ U) :
    ∀ fuel frm vis res, hasPathDfs edges tgt fuel frm vis = (false, res) → frm ∉ vis →
      visMeasure U (frm :: vis) < fuel →
      vis ⊆ res ∧ frm ∈ res ∧ (∀ v ∈ res, v ∉ vis → ∀ w, stepRel edges v w → w ∈ res) := by
  intro fuel
  induction fuel with
  | zero => intro frm vis res _ _ hlt; exact absurd hlt (Nat.not_lt_zero _)
  | succ fuel ih =>
    intro frm vis res h hnv hlt
    by_cases he : frm = tgt
    · simp only [hasPathDfs, if_pos he, Prod.mk.injEq] at h
      exact absurd h.1 (by simp)
    · simp only [hasPathDfs, if_neg he] at h
      have hns : ∀ n ∈ neighbors edges frm, n ∈ U := by
        intro n hn
        obtain ⟨l, hl, _, ht⟩ := mem_neighbors_iff.mp hn
        exact ht ▸ hU l hl
      obtain ⟨g1, g2, g3⟩ := dfsGo_false_inv ih (neighbors edges frm) (frm :: vis) res hns
        (Nat.le_of_lt_succ hlt) h
      refine ⟨(List.subset_cons_self _ _).trans g1, g1 (List.mem_cons_self _ _), ?_⟩
      intro v hv hnv2 w hw
      by_cases hvf : v = frm
      · subst hvf
        exact g2 w (mem_neighbors_iff.mpr hw)
      · have : v ∉ frm :: vis := by
          intro hc
          rcases List.mem_cons.mp hc with rfl | hc'
          · exact hvf rfl
          · exact hnv2 hc'
        exact g3 v hv this w hw

theorem hasPath_complete {edges : List SankeyLink} {frm tgt : Str}
    (h : Relation.ReflTransGen (stepRel edges) frm tgt) : hasPath edges frm tgt = true := by
  by_contra hc
  rw [Bool.not_eq_true] at hc
  set U : List Str := frm :: edges.map SankeyLink.target with hUdef
  have hU : ∀ l ∈ edges, l.target ∈ U := by
    intro l hl
    exact List.mem_cons_of_mem _ (List.mem_map_of_mem _ hl)
  by_cases he : frm = tgt
  · subst he
    simp [hasPath, hasPathDfs] at hc
  · have hr : hasPathDfs edges tgt (edges.length + 2) frm [] =
        (false, (hasPathDfs edges tgt (edges.length + 2) frm []).2) :=
      Prod.ext (by simpa [hasPath] using hc) rfl
    have hmeas : visMeasure U [frm] < edges.length + 2 := by
      have h1 : visMeasure U [frm] ≤ visMeasure U [] := visMeasure_mono (by simp)
      have h2 : visMeasure U [] ≤ U.length := by
        simp only [visMeasure, List.toFinset_nil, Finset.sdiff_empty]
        exact List.toFinset_card_le _
      have h3 : U.length = edges.length + 1 := by simp [hUdef]
      omega
    obtain ⟨_, hfrm, hclosed⟩ := hasPathDfs_false_inv hU (edges.length + 2) frm [] _ hr
      (List.not_mem_nil _) hmeas
    have htgt : tgt ∉ (hasPathDfs edges tgt (edges.length + 2) frm []).2 := by
      intro hmem
      rcases hasPathDfs_vis_new _ _ _ _ hmem with h' | h'
      · exact List.not_mem_nil _ h'
      · exact h' rfl
    have key : ∀ a, Relation.ReflTransGen (stepRel edges) a tgt →
        a ∈ (hasPathDfs edges tgt (edges.length + 2) frm []).2 →
        tgt ∈ (hasPathDfs edges tgt (edges.length + 2) frm []).2 := by
      intro a ha
      induction ha using Relation.ReflTransGen.head_induction_on with
      | refl => exact fun hmem => hmem
      | head hstep htail ihp =>
        exact fun hmem => ihp (hclosed _ hmem (List.not_mem_nil _) _ hstep)
    exact htgt (key frm h hfrm)

theorem hasPath_iff {edges : List SankeyLink} {frm tgt : Str} :
    hasPath edges frm tgt = true ↔ Relation.ReflTransGen (stepRel edges) frm tgt :=
  ⟨fun h => hasPathDfs_sound _ _ _ h, hasPath_complete⟩

/-! ### Properties of the greedy cycle-removal pass -/

/-- No directed cycle among the given links, over node ids. -/
def Acyclic (edges : List SankeyLink) : Prop :=
  ∀ x, ¬ Relation.TransGen (stepRel edges) x x

theorem transGen_nil_false {x y : Str} (h : Relation.TransGen (stepRel []) x y) : False := by
  induction h with
  | single h => simp [stepRel] at h
  | tail _ h _ => simp [stepRel] at h

theorem acyclic_nil : Acyclic [] := fun _ h => transGen_nil_false h

theorem stepRel_append_singleton {acc : List SankeyLink} {e : SankeyLink} {a b : Str} :
    stepRel (acc ++ [e]) a b ↔ stepRel acc a b ∨ (e.source = a ∧ e.target = b) := by
  simp only [stepRel, List.mem_append, List.mem_singleton]
  constructor
  · rintro ⟨l, hl | rfl, hs, ht⟩
    · exact Or.inl ⟨l, hl, hs, ht⟩
    · exact Or.inr ⟨hs, ht⟩
  · rintro (⟨l, hl, hs, ht⟩ | ⟨hs, ht⟩)
    · exact ⟨l, Or.inl hl, hs, ht⟩
    · exact ⟨e, Or.inr rfl, hs, ht⟩

theorem transGen_append_decomp {acc : List SankeyLink} {e : SankeyLink} {x y : Str}
    (h : Relation.TransGen (stepRel (acc ++ [e])) x y) :
    Relation.TransGen (stepRel acc) x y ∨
      (Relation.ReflTransGen (stepRel acc) x e.source ∧
        Relation.ReflTransGen (stepRel acc) e.target y) := by
  induction h with
  | single h =>
    rcases stepRel_append_singleton.mp h with h' | ⟨hs, ht⟩
    · exact Or.inl (Relation.TransGen.single h')
    · exact Or.inr ⟨hs ▸ Relation.ReflTransGen.refl, ht ▸ Relation.ReflTransGen.refl⟩
  | tail hxy hyz ih =>
    rcases stepRel_append_singleton.mp hyz with h' | ⟨hs, ht⟩
    · rcases ih with ih' | ⟨ih1, ih2⟩
      · exact Or.inl (ih'.tail h')
      · exact Or.inr ⟨ih1, ih2.tail h'⟩
    · rcases ih with ih' | ⟨ih1, ih2⟩
      · exact Or.inr ⟨hs ▸ ih'.to_reflTransGen, ht ▸ Relation.ReflTransGen.refl⟩
      · exact Or.inr ⟨ih1, ht ▸ Relation.ReflTransGen.refl⟩

/-- The candidate edge is dropped exactly under the source's two rejection
tests. -/
theorem dagStep_eq_of_reject {acc : List SankeyLink} {e : SankeyLink}
    (h : e.source = e.target ∨ Relation.ReflTransGen (stepRel acc) e.target e.source) :
    dagStep acc e = acc := by
  unfold dagStep
  rcases h with h | h
  · rw [if_pos h]
  · by_cases hst : e.source = e.target
    · rw [if_pos hst]
    · rw [if_neg hst, if_pos (hasPath_complete h)]

theorem dagStep_eq_of_accept {acc : List SankeyLink} {e : SankeyLink}
    (h : ¬(e.source = e.target ∨ Relation.ReflTransGen (stepRel acc) e.target e.source)) :
    dagStep acc e = acc ++ [e] := by
  push_neg at h
  unfold dagStep
  rw [if_neg h.1]
  have : hasPath acc e.target e.source = false := by
    by_contra hc
    rw [Bool.not_eq_false] at hc
    exact h.2 (hasPath_iff.mp hc)
  rw [this]
  simp

theorem dagStep_cases (acc : List SankeyLink) (e : SankeyLink) :
    dagStep acc e = acc ∨ dagStep acc e = acc ++ [e] := by
  unfold dagStep
  by_cases h1 : e.source = e.target
  · rw [if_pos h1]; exact Or.inl rfl
  · rw [if_neg h1]
    by_cases h2 : hasPath acc e.target e.source
    · rw [if_pos h2]; exact Or.inl rfl
    · rw [if_neg h2]; exact Or.inr rfl

theorem dagStep_preserves {acc : List SankeyLink} {e : SankeyLink}
    (h1 : Acyclic acc) (h2 : ∀ l ∈ acc, l.source ≠ l.target) :
    Acyclic (dagStep acc e) ∧ ∀ l ∈ dagStep acc e, l.source ≠ l.target := by
  by_cases hrej : e.source = e.target ∨ Relation.ReflTransGen (stepRel acc) e.target e.source
  · rw [dagStep_eq_of_reject hrej]; exact ⟨h1, h2⟩
  · rw [dagStep_eq_of_accept hrej]
    push_neg at hrej
    constructor
    · intro x hx
      rcases transGen_append_decomp hx with h' | ⟨ha, hb⟩
      · exact h1 x h'
      · exact hrej.2 (hb.trans ha)
    · intro l hl
      rcases List.mem_append.mp hl with hl' | hl'
      · exact h2 l hl'
      · rw [List.mem_singleton.mp hl']
        exact hrej.1

theorem foldl_dagStep_props :
    ∀ (ls : List SankeyLink) (acc : List SankeyLink),
      Acyclic acc → (∀ l ∈ acc, l.source ≠ l.target) →
      Acyclic (ls.foldl dagStep acc) ∧ ∀ l ∈ ls.foldl dagStep acc, l.source ≠ l.target := by
  intro ls
  induction ls with
  | nil => intro acc h1 h2; exact ⟨h1, h2⟩
  | cons l ls ih =>
    intro acc h1 h2
    obtain ⟨h1', h2'⟩ := @dagStep_preserves acc l h1 h2
    exact ih _ h1' h2'

/-- The cycle-removal output is acyclic and free of self-loops, for every
input list. -/
theorem dagFilter_props (ls : List SankeyLink) :
    Acyclic (dagFilter ls) ∧ ∀ l ∈ dagFilter ls, l.source ≠ l.target :=
  foldl_dagStep_props ls [] acyclic_nil (by simp)

theorem foldl_dagStep_sublist :
    ∀ (ls acc : List SankeyLink), ∃ sub, ls.foldl dagStep acc = acc ++ sub ∧ sub.Sublist ls := by
  intro ls
  induction ls with
  | nil => intro acc; exact ⟨[], by simp, List.nil_sublist _⟩
  | cons l ls ih =>
    intro acc
    rcases dagStep_cases acc l with h | h
    · obtain ⟨sub, hs1, hs2⟩ := ih acc
      exact ⟨sub, by simpa [h] using hs1, hs2.cons _⟩
    · obtain ⟨sub, hs1, hs2⟩ := ih (acc ++ [l])
      refine ⟨l :: sub, ?_, hs2.cons₂ _⟩
      simp only [List.foldl_cons, h, hs1, List.append_assoc, List.singleton_append]

/-- The accepted links form a sublist of the candidate list: first-seen
order is preserved and rejected edges are simply dropped. -/
theorem dagFilter_sublist (ls : List SankeyLink) : (dagFilter ls).Sublist ls := by
  obtain ⟨sub, h1, h2⟩ := foldl_dagStep_sublist ls []
  simpa [dagFilter, h1] using h2

theorem dagFilter_mem {ls : List SankeyLink} {l : SankeyLink} (h : l ∈ dagFilter ls) : l ∈ ls :=
  (dagFilter_sublist ls).mem h

theorem dagFilter_append_singleton (pre : List SankeyLink) (e : SankeyLink) :
    dagFilter (pre ++ [e]) = dagStep (dagFilter pre) e := by
  simp [dagFilter, List.foldl_append]

/-! ### Properties of the duplicate-link aggregation pass -/

/-- Lookup in the `uniqueLinks` association list. -/
def aggLookup : List (Str × SankeyLink) → Str → Option SankeyLink
  | [], _ => none
  | (k', e) :: rest, k => if k' = k then some e else aggLookup rest k

/-- The keys of the `uniqueLinks` map, in insertion order. -/
def aggKeys (acc : List (Str × SankeyLink)) : List Str := acc.map Prod.fst

theorem mergeLinks_value (e l : SankeyLink) : (mergeLinks e l).value = e.value + l.value := by
  unfold mergeLinks
  cases e.previousValue <;> cases l.previousValue <;> rfl

theorem mergeLinks_source (e l : SankeyLink) : (mergeLinks e l).source = e.source := by
  unfold mergeLinks
  cases e.previousValue <;> cases l.previousValue <;> rfl

theorem mergeLinks_target (e l : SankeyLink) : (mergeLinks e l).target = e.target := by
  unfold mergeLinks
  cases e.previousValue <;> cases l.previousValue <;> rfl

theorem aggKey_mergeLinks (e l : SankeyLink) : aggKey (mergeLinks e l) = aggKey e := by
  simp [aggKey, mergeLinks_source, mergeLinks_target]

theorem aggUpd_nil (l : SankeyLink) : aggUpd [] l = [(aggKey l, l)] := rfl

theorem aggUpd_cons (k : Str) (e : SankeyLink) (rest : List (Str × SankeyLink)) (l : SankeyLink) :
    aggUpd ((k, e) :: rest) l =
      if k = aggKey l then (k, mergeLinks e l) :: rest else (k, e) :: aggUpd rest l := rfl

theorem aggLookup_nil (k : Str) : aggLookup [] k = none := rfl

theorem aggLookup_cons (k' : Str) (e : SankeyLink) (rest : List (Str × SankeyLink)) (k : Str) :
    aggLookup ((k', e) :: rest) k = if k' = k then some e else aggLookup rest k := rfl

theorem aggKeys_nil : aggKeys [] = [] := rfl

theorem aggKeys_cons (k : Str) (e : SankeyLink) (rest : List (Str × SankeyLink)) :
    aggKeys ((k, e) :: rest) = k :: aggKeys rest := rfl

theorem aggUpd_lookup_hit (acc : List (Str × SankeyLink)) (l : SankeyLink) :
    aggLookup (aggUpd acc l) (aggKey l) =
      some (match aggLookup acc (aggKey l) with
            | some e => mergeLinks e l
            | none => l) := by
  induction acc with
  | nil => rw [aggUpd_nil, aggLookup_cons, if_pos rfl, aggLookup_nil]
  | cons p rest ih =>
    obtain ⟨k, e⟩ := p
    by_cases hk : k = aggKey l
    · subst hk
      rw [aggUpd_cons, if_pos rfl, aggLookup_cons, if_pos rfl, aggLookup_cons, if_pos rfl]
    · rw [aggUpd_cons, if_neg hk, aggLookup_cons, if_neg hk, aggLookup_cons, if_neg hk, ih]

theorem aggUpd_lookup_miss (acc : List (Str × SankeyLink)) (l : SankeyLink) (k : Str)
    (h : k ≠ aggKey l) : aggLookup (aggUpd acc l) k = aggLookup acc k := by
  induction acc with
  | nil => rw [aggUpd_nil, aggLookup_cons, if_neg (fun hc => h hc.symm), aggLookup_nil]
  | cons p rest ih =>
    obtain ⟨k', e⟩ := p
    by_cases hk : k' = aggKey l
    · subst hk
      rw [aggUpd_cons, if_pos rfl, aggLookup_cons, if_neg (fun hc => h hc.symm),
        aggLookup_cons, if_neg (fun hc => h hc.symm)]
    · rw [aggUpd_cons, if_neg hk, aggLookup_cons, aggLookup_cons]
      by_cases hk2 : k' = k
      · rw [if_pos hk2, if_pos hk2]
      · rw [if_neg hk2, if_neg hk2, ih]

theorem aggUpd_keys (acc : List (Str × SankeyLink)) (l : SankeyLink) :
    (aggKey l ∈ aggKeys acc ∧ aggKeys (aggUpd acc l) = aggKeys acc) ∨
      (aggKey l ∉ aggKeys acc ∧ aggKeys (aggUpd acc l) = aggKeys acc ++ [aggKey l]) := by
  induction acc with
  | nil => exact Or.inr ⟨List.not_mem_nil _, rfl⟩
  | cons p rest ih =>
    obtain ⟨k, e⟩ := p
    by_cases hk : k = aggKey l
    · subst hk
      refine Or.inl ⟨?_, ?_⟩
      · rw [aggKeys_cons]; exact List.mem_cons_self _ _
      · rw [aggUpd_cons, if_pos rfl, aggKeys_cons, aggKeys_cons]
    · rcases ih with ⟨h1, h2⟩ | ⟨h1, h2⟩
      · refine Or.inl ⟨?_, ?_⟩
        · rw [aggKeys_cons]; exact List.mem_cons_of_mem _ h1
        · rw [aggUpd_cons, if_neg hk, aggKeys_cons, h2, aggKeys_cons]
      · refine Or.inr ⟨?_, ?_⟩
        · rw [aggKeys_cons]
          intro hc
          rcases List.mem_cons.mp hc with hc' | hc'
          · exact hk hc'.symm
          · exact h1 hc'
        · rw [aggUpd_cons, if_neg hk, aggKeys_cons, h2, aggKeys_cons, List.cons_append]

/-- Well-formedness of the `uniqueLinks` map: keys are distinct and every
entry's key is its link's key. -/
def AggWF (acc : List (Str × SankeyLink)) : Prop :=
  (aggKeys acc).Nodup ∧ ∀ p ∈ acc, aggKey p.2 = p.1

theorem aggUpd_wf {acc : List (Str × SankeyLink)} (h : AggWF acc) (l : SankeyLink) :
    AggWF (aggUpd acc l) := by
  obtain ⟨h1, h2⟩ := h
  constructor
  · rcases aggUpd_keys acc l with ⟨_, he⟩ | ⟨hm, he⟩
    · rw [he]; exact h1
    · rw [he]
      simp only [List.nodup_append, List.nodup_singleton, List.disjoint_singleton]
      exact ⟨h1, by simp, by simpa using hm⟩
  · intro p hp
    clear h1
    induction acc with
    | nil =>
      simp only [aggUpd, List.mem_singleton] at hp
      subst hp; rfl
    | cons q rest ih =>
      obtain ⟨k, e⟩ := q
      by_cases hk : k = aggKey l
      · simp only [aggUpd, if_pos hk, List.mem_cons] at hp
        rcases hp with rfl | hp
        · simp only
          rw [aggKey_mergeLinks]
          exact h2 (k, e) (List.mem_cons_self _ _)
        · exact h2 p (List.mem_cons_of_mem _ hp)
      · simp only [aggUpd, if_neg hk, List.mem_cons] at hp
        rcases hp with rfl | hp
        · exact h2 (k, e) (List.mem_cons_self _ _)
        · exact ih (fun q hq => h2 q (List.mem_cons_of_mem _ hq)) hp

/-- Sum of the values of the candidate links having a given key. -/
def keySum (ls : List SankeyLink) (k : Str) : ℚ :=
  ((ls.filter (fun x => aggKey x = k)).map SankeyLink.value).sum

/-- Value stored under a key, `0` when absent. -/
def lookVal (acc : List (Str × SankeyLink)) (k : Str) : ℚ :=
  match aggLookup acc k with
  | some e => e.value
  | none => 0

theorem aggUpd_lookVal (acc : List (Str × SankeyLink)) (l : SankeyLink) (k : Str) :
    lookVal (aggUpd acc l) k =
      lookVal acc k + (if aggKey l = k then l.value else 0) := by
  by_cases hk : aggKey l = k
  · subst hk
    rw [if_pos rfl]
    unfold lookVal
    rw [aggUpd_lookup_hit]
    cases h : aggLookup acc (aggKey l) with
    | none => simp
    | some e => simp [mergeLinks_value]
  · rw [if_neg hk]
    unfold lookVal
    rw [aggUpd_lookup_miss acc l k (fun hc => hk hc.symm)]
    ring

theorem foldl_aggUpd_lookVal :
    ∀ (ls : List SankeyLink) (acc : List (Str × SankeyLink)) (k : Str),
      lookVal (ls.foldl aggUpd acc) k = lookVal acc k + keySum ls k := by
  intro ls
  induction ls with
  | nil => intro acc k; simp [keySum]
  | cons l ls ih =>
    intro acc k
    rw [List.foldl_cons, ih, aggUpd_lookVal]
    unfold keySum
    by_cases hk : aggKey l = k
    · rw [if_pos hk]
      simp only [List.filter_cons, decide_eq_true_eq, if_pos hk, hk]
      simp [List.sum_cons]
      ring
    · rw [if_neg hk]
      simp only [List.filter_cons, decide_eq_true_eq]
      rw [if_neg hk]
      ring_nf

theorem aggLookup_of_mem :
    ∀ (acc : List (Str × SankeyLink)), (aggKeys acc).Nodup →
      ∀ p ∈ acc, aggLookup acc p.1 = some p.2 := by
  intro acc
  induction acc with
  | nil => intro _ p hp; cases hp
  | cons q rest ih =>
    intro h1 p hp
    obtain ⟨k, e⟩ := q
    rw [aggKeys_cons, List.nodup_cons] at h1
    rcases List.mem_cons.mp hp with rfl | hp'
    · rw [aggLookup_cons, if_pos rfl]
    · have hk : k ≠ p.1 := by
        intro hc
        apply h1.1
        rw [hc]
        exact List.mem_map_of_mem Prod.fst hp'
      rw [aggLookup_cons, if_neg hk]
      exact ih h1.2 p hp'

theorem foldl_aggUpd_wf :
    ∀ (ls : List SankeyLink) (acc : List (Str × SankeyLink)), AggWF acc →
      AggWF (ls.foldl aggUpd acc) := by
  intro ls
  induction ls with
  | nil => intro acc h; exact h
  | cons l ls ih => intro acc h; exact ih _ (aggUpd_wf h l)

theorem aggWF_nil : AggWF [] := ⟨by simp [aggKeys], by simp⟩

/-- Every aggregated link's value is the sum of the values of the candidate
links sharing its key. -/
theorem aggregate_value_eq_keySum {ls : List SankeyLink} {l : SankeyLink}
    (h : l ∈ aggregate ls) : l.value = keySum ls (aggKey l) := by
  obtain ⟨⟨k, e⟩, hp, he⟩ := List.mem_map.mp h
  have hwf : AggWF (ls.foldl aggUpd []) := foldl_aggUpd_wf ls [] aggWF_nil
  have hkey : aggKey e = k := hwf.2 _ hp
  have hlook := aggLookup_of_mem _ hwf.1 _ hp
  have hval := foldl_aggUpd_lookVal ls [] k
  simp only at he
  subst he
  rw [hkey]
  unfold lookVal at hval
  rw [hlook] at hval
  simpa [aggLookup] using hval

/-! ### Invariants of the per-line loops -/

/-- All links carry a strictly positive value. -/
def LinksPos (ls : List SankeyLink) : Prop := ∀ l ∈ ls, 0 < l.value

/-- The node registry invariant: display names are unique and every node's
id and category are derived from its display name. -/
def NodesWF (ns : List SankeyNode) : Prop :=
  (ns.map SankeyNode.name).Nodup ∧
    ∀ n ∈ ns, n.id = slugId n.name ∧ n.category = categorizeNode n.name

theorem bracketFlow_spec {g1 c g3 : Str} {f : ParsedFlowLine}
    (h : bracketFlow g1 c g3 = some f) :
    0 < f.value ∧ f.sourceName = jsTrim g1 ∧ f.targetName = jsTrim g3 := by
  simp only [bracketFlow] at h
  split at h
  · split at h
    · split at h
      · rename_i value hvalue
        cases h
        exact ⟨hvalue, rfl, rfl⟩
      · cases h
    · cases h
  · split at h
    · split at h
      · rename_i value hvalue
        cases h
        exact ⟨hvalue, rfl, rfl⟩
      · cases h
    · cases h

theorem parseArrowFlowLine_pos {t : Str} {f : ParsedFlowLine}
    (h : parseArrowFlowLine t = some f) : 0 < f.value := by
  simp only [parseArrowFlowLine] at h
  split at h
  · cases h
  · split at h
    · cases h
    · split at h
      · cases h
      · rename_i hcond
        push_neg at hcond
        cases h
        exact hcond.2.2

theorem parseDelimitedFlowLine_pos {t : Str} {f : ParsedFlowLine}
    (h : parseDelimitedFlowLine t = some f) : 0 < f.value := by
  simp only [parseDelimitedFlowLine] at h
  split at h
  · cases h
  · split at h
    · cases h
    · split at h
      · cases h
      · rename_i hcond
        push_neg at hcond
        cases h
        exact hcond.2.2

theorem findNodeByName_eq_none {ns : List SankeyNode} {name : Str} :
    findNodeByName ns name = none ↔ ∀ n ∈ ns, n.name ≠ name := by
  unfold findNodeByName
  rw [List.find?_eq_none]
  constructor
  · intro h n hn
    have := h n hn
    simpa using this
  · intro h n hn
    simpa using h n hn

theorem findNodeByName_isSome {ns : List SankeyNode} {name : Str}
    (h : (findNodeByName ns name).isSome = true) : ∃ n ∈ ns, n.name = name := by
  obtain ⟨n, hn⟩ := Option.isSome_iff_exists.mp h
  refine ⟨n, List.mem_of_find?_eq_some hn, ?_⟩
  have := List.find?_some hn
  simpa using this

theorem nodesWF_append {ns : List SankeyNode} {name : Str} {color : Option Str}
    (h : NodesWF ns) (hnew : ∀ n ∈ ns, n.name ≠ name) :
    NodesWF (ns ++ [createNode name color]) := by
  obtain ⟨h1, h2⟩ := h
  constructor
  · rw [List.map_append]
    simp only [List.map_cons, List.map_nil]
    rw [List.nodup_append]
    refine ⟨h1, List.nodup_singleton _, ?_⟩
    intro x hx
    obtain ⟨n, hn, rfl⟩ := List.mem_map.mp hx
    simpa [createNode] using hnew n hn
  · intro n hn
    rcases List.mem_append.mp hn with hn' | hn'
    · exact h2 n hn'
    · rw [List.mem_singleton.mp hn']
      exact ⟨rfl, rfl⟩

theorem nodesWF_registerStep {ns : List SankeyNode} (nm : Str) (color : Option Str)
    (hns : NodesWF ns) :
    NodesWF (if (findNodeByName ns nm).isSome then ns else ns ++ [createNode nm color]) := by
  by_cases hx : (findNodeByName ns nm).isSome = true
  · rw [if_pos hx]; exact hns
  · rw [if_neg hx]
    refine nodesWF_append hns ?_
    have hx' : findNodeByName ns nm = none := by
      cases hfind : findNodeByName ns nm
      · rfl
      · rw [hfind] at hx
        simp at hx
    exact findNodeByName_eq_none.mp hx'

theorem addFlow_nodes_inv {st : ParseState} {f : ParsedFlowLine}
    (h : NodesWF st.nodes) : NodesWF (addFlow st f).nodes := by
  unfold addFlow
  exact nodesWF_registerStep _ _ (nodesWF_registerStep _ _ h)

theorem addFlow_links {st : ParseState} {f : ParsedFlowLine} :
    ∃ s t, (addFlow st f).links = st.links ++ [⟨s, t, f.value, f.previousValue, f.comparisonValue⟩] := by
  unfold addFlow
  exact ⟨_, _, rfl⟩

theorem addFlow_links_pos {st : ParseState} {f : ParsedFlowLine}
    (h : LinksPos st.links) (hf : 0 < f.value) : LinksPos (addFlow st f).links := by
  obtain ⟨s, t, he⟩ := @addFlow_links st f
  rw [he]
  intro l hl
  rcases List.mem_append.mp hl with hl' | hl'
  · exact h l hl'
  · rw [List.mem_singleton.mp hl']
    exact hf

theorem parsedFlowAt_pos {t : Str} {f : ParsedFlowLine}
    (hf : (match flowMatch t with
           | some (g1, content, g3) => bracketFlow g1 content g3
           | none =>
             match parseArrowFlowLine t with
             | some fa => some fa
             | none => parseDelimitedFlowLine t) = some f) : 0 < f.value := by
  cases hmatch : flowMatch t with
  | some g =>
    obtain ⟨g1, c, g3⟩ := g
    rw [hmatch] at hf
    exact (bracketFlow_spec hf).1
  | none =>
    rw [hmatch] at hf
    cases harr : parseArrowFlowLine t with
    | some fa =>
      rw [harr] at hf
      have hfa : (some fa : Option ParsedFlowLine) = some f := hf
      injection hfa with hfa'
      rw [← hfa']
      exact parseArrowFlowLine_pos harr
    | none =>
      rw [harr] at hf
      exact parseDelimitedFlowLine_pos hf

theorem procLine_inv {st : ParseState} {line : Str}
    (h : NodesWF st.nodes ∧ LinksPos st.links) :
    NodesWF (procLine st line).nodes ∧ LinksPos (procLine st line).links := by
  simp only [procLine]
  split
  · exact h
  · split
    · exact h
    · split
      · exact h
      · split
        · rename_i f hf
          have hpos : 0 < f.value := parsedFlowAt_pos hf
          exact ⟨addFlow_nodes_inv h.1, addFlow_links_pos h.2 hpos⟩
        · exact h

theorem foldl_procLine_inv (lines : List Str) :
    ∀ st : ParseState, NodesWF st.nodes ∧ LinksPos st.links →
      NodesWF (lines.foldl procLine st).nodes ∧ LinksPos (lines.foldl procLine st).links := by
  induction lines with
  | nil => intro st h; exact h
  | cons l ls ih => intro st h; exact ih _ (procLine_inv h)

theorem rawState_inv (text : Str) :
    NodesWF (rawState text).nodes ∧ LinksPos (rawState text).links := by
  apply foldl_procLine_inv
  exact ⟨⟨by simp, by simp⟩, by simp [LinksPos]⟩

theorem parseDSL_eq {text : Str} {g : SankeyData} (h : parseDSL text = some g) :
    g.nodes = (rawState text).nodes ∧
      g.links = dagFilter (aggregate (rawState text).links) := by
  simp only [parseDSL] at h
  split at h
  · cases h
  · cases h
    exact ⟨rfl, rfl⟩

theorem aggUpd_pos {acc : List (Str × SankeyLink)} {l : SankeyLink}
    (ha : ∀ p ∈ acc, 0 < p.2.value) (hl : 0 < l.value) :
    ∀ p ∈ aggUpd acc l, 0 < p.2.value := by
  induction acc with
  | nil =>
    intro p hp
    rw [aggUpd_nil, List.mem_singleton] at hp
    rw [hp]
    exact hl
  | cons q rest ih =>
    obtain ⟨k, e⟩ := q
    intro p hp
    by_cases hk : k = aggKey l
    · rw [aggUpd_cons, if_pos hk, List.mem_cons] at hp
      rcases hp with rfl | hp'
      · simp only [mergeLinks_value]
        have he : 0 < e.value := ha (k, e) (List.mem_cons_self _ _)
        linarith
      · exact ha p (List.mem_cons_of_mem _ hp')
    · rw [aggUpd_cons, if_neg hk, List.mem_cons] at hp
      rcases hp with rfl | hp'
      · exact ha (k, e) (List.mem_cons_self _ _)
      · exact ih (fun q hq => ha q (List.mem_cons_of_mem _ hq)) p hp'

theorem foldl_aggUpd_pos :
    ∀ (ls : List SankeyLink) (acc : List (Str × SankeyLink)),
      (∀ p ∈ acc, 0 < p.2.value) → LinksPos ls →
      ∀ p ∈ ls.foldl aggUpd acc, 0 < p.2.value := by
  intro ls
  induction ls with
  | nil => intro acc ha _; exact ha
  | cons l ls ih =>
    intro acc ha hl
    exact ih _ (aggUpd_pos ha (hl l (List.mem_cons_self _ _)))
      (fun x hx => hl x (List.mem_cons_of_mem _ hx))

theorem aggregate_pos {ls : List SankeyLink} (h : LinksPos ls) : LinksPos (aggregate ls) := by
  intro l hl
  obtain ⟨p, hp, he⟩ := List.mem_map.mp hl
  have hv := foldl_aggUpd_pos ls [] (by simp) h p hp
  rw [he] at hv
  exact hv

/-! ### Invariants of the CSV row loop, and pair-distinctness of aggregation -/

theorem registerStep_subset (ns : List SankeyNode) (nm : Str) (color : Option Str) :
    ns ⊆ (if (findNodeByName ns nm).isSome then ns else ns ++ [createNode nm color]) := by
  by_cases hx : (findNodeByName ns nm).isSome = true
  · rw [if_pos hx]
    exact List.Subset.refl _
  · rw [if_neg hx]
    exact List.subset_append_left _ _

theorem registerStep_has (ns : List SankeyNode) (nm : Str) (color : Option Str) :
    ∃ n ∈ (if (findNodeByName ns nm).isSome then ns else ns ++ [createNode nm color]),
      n.name = nm := by
  by_cases hx : (findNodeByName ns nm).isSome = true
  · rw [if_pos hx]
    exact findNodeByName_isSome hx
  · rw [if_neg hx]
    exact ⟨createNode nm color, List.mem_append_right _ (List.mem_singleton_self _), rfl⟩

/-- The invariant of `parseCSV`'s row loop: values are positive, and every
link's source and target are the display name of some registered node. -/
def CsvInv (st : ParseState) : Prop :=
  LinksPos st.links ∧
    ∀ l ∈ st.links,
      (∃ n ∈ st.nodes, n.name = l.source) ∧ (∃ n ∈ st.nodes, n.name = l.target)

theorem csvRow_inv {st : ParseState} {line : Str} (h : CsvInv st) : CsvInv (csvRow st line) := by
  simp only [csvRow]
  split
  · exact h
  · split
    · exact h
    · split
      · exact h
      · rename_i hcond
        push_neg at hcond
        constructor
        · intro l hl
          rcases List.mem_append.mp hl with hl' | hl'
          · exact h.1 l hl'
          · rw [List.mem_singleton.mp hl']
            exact hcond.2.2
        · intro l hl
          rcases List.mem_append.mp hl with hl' | hl'
          · obtain ⟨⟨n1, hn1, he1⟩, ⟨n2, hn2, he2⟩⟩ := h.2 l hl'
            exact ⟨⟨n1, (registerStep_subset _ _ _) ((registerStep_subset _ _ _) hn1), he1⟩,
                   ⟨n2, (registerStep_subset _ _ _) ((registerStep_subset _ _ _) hn2), he2⟩⟩
          · rw [List.mem_singleton.mp hl']
            obtain ⟨n1, hn1, he1⟩ := registerStep_has st.nodes
              (jsTrim ((parseCSVLine line).getD 0 [])) none
            obtain ⟨n2, hn2, he2⟩ := registerStep_has
              (if (findNodeByName st.nodes (jsTrim ((parseCSVLine line).getD 0 []))).isSome
               then st.nodes
               else st.nodes ++ [createNode (jsTrim ((parseCSVLine line).getD 0 [])) none])
              (jsTrim ((parseCSVLine line).getD 1 [])) none
            exact ⟨⟨n1, (registerStep_subset _ _ _) hn1, he1⟩, ⟨n2, hn2, he2⟩⟩

theorem foldl_csvRow_inv :
    ∀ (lines : List Str) (st : ParseState), CsvInv st → CsvInv (lines.foldl csvRow st) := by
  intro lines
  induction lines with
  | nil => intro st h; exact h
  | cons l ls ih => intro st h; exact ih _ (csvRow_inv h)

theorem csvState_inv (text : Str) : CsvInv (csvState text) :=
  foldl_csvRow_inv _ _ ⟨(by intro l hl; cases hl), (by intro l hl; cases hl)⟩

theorem parseCSV_eq {text : Str} {g : SankeyData} (h : parseCSV text = some g) :
    g.nodes = (csvState text).nodes ∧ g.links = (csvState text).links := by
  simp only [parseCSV] at h
  split at h
  · cases h
  · split at h
    · cases h
    · cases h
      exact ⟨rfl, rfl⟩

theorem aggregate_pairwise (ls : List SankeyLink) :
    (aggregate ls).Pairwise (fun a b => aggKey a ≠ aggKey b) := by
  have hwf := foldl_aggUpd_wf ls [] aggWF_nil
  have h1 : (aggKeys (ls.foldl aggUpd [])).Nodup := hwf.1
  have h2 := hwf.2
  unfold aggregate
  unfold aggKeys at h1
  rw [List.pairwise_map]
  have h3 : (ls.foldl aggUpd []).Pairwise (fun p q => p.1 ≠ q.1) := List.pairwise_map.mp h1
  refine h3.imp_of_mem ?_
  intro p q hp hq hne
  rw [h2 p hp, h2 q hq]
  exact hne

/-! ### Concrete graphs used by witnesses and counterexamples -/

/-- `parseDSL "Revenue [100] Profit"`. -/
def gRevenueProfit : SankeyData :=
  ⟨[⟨str "revenue", str "Revenue", none, .revenue⟩,
    ⟨str "profit", str "Profit", none, .profit⟩],
   [⟨str "revenue", str "profit", 100, none, none⟩]⟩

/-- `parseDSL "A [10] B\nB [10] A"`. -/
def gFirstEdgeOnly : SankeyData :=
  ⟨[⟨str "a", str "A", none, .neutral⟩, ⟨str "b", str "B", none, .neutral⟩],
   [⟨str "a", str "b", 10, none, none⟩]⟩

/-- `parseCSV "From,To,Value\nRevenue,Profit,100\nRevenue,Expenses,50"`; note the
links hold display names. -/
def gCsvHeader : SankeyData :=
  ⟨[⟨str "revenue", str "Revenue", none, .revenue⟩,
    ⟨str "profit", str "Profit", none, .profit⟩,
    ⟨str "expenses", str "Expenses", none, .expense⟩],
   [⟨str "Revenue", str "Profit", 100, none, none⟩,
    ⟨str "Revenue", str "Expenses", 50, none, none⟩]⟩

/-- `parseDSL "Revenue [100] Profit\nRevenue [50] Profit"`. -/
def gAggregated : SankeyData :=
  ⟨[⟨str "revenue", str "Revenue", none, .revenue⟩,
    ⟨str "profit", str "Profit", none, .profit⟩],
   [⟨str "revenue", str "profit", 150, none, none⟩]⟩

/-- `parseDSL "A|B [10] C\nA [20] B|C"`: the two distinct pairs collide on the
aggregation key `a|b|c`, so one merged link of value 30 survives. -/
def gBarCollision : SankeyData :=
  ⟨[⟨str "a|b", str "A|B", none, .neutral⟩, ⟨str "c", str "C", none, .neutral⟩,
    ⟨str "a", str "A", none, .neutral⟩, ⟨str "b|c", str "B|C", none, .neutral⟩],
   [⟨str "a|b", str "c", 30, none, none⟩]⟩

/-- `parseDSL "Revenue [100] Profit\nREVENUE [50] Profit"`: two distinct nodes
share the derived id `revenue`. -/
def gDupIds : SankeyData :=
  ⟨[⟨str "revenue", str "Revenue", none, .revenue⟩,
    ⟨str "profit", str "Profit", none, .profit⟩,
    ⟨str "revenue", str "REVENUE", none, .revenue⟩],
   [⟨str "revenue", str "profit", 150, none, none⟩]⟩

/-- `parseCSV "A,B,10\nA,B,5\nB,A,7\nC,C,1\nRevenue X,Y,3"`. -/
def gCsvRaw : SankeyData :=
  ⟨[⟨str "a", str "A", none, .neutral⟩, ⟨str "b", str "B", none, .neutral⟩,
    ⟨str "c", str "C", none, .neutral⟩,
    ⟨str "revenue_x", str "Revenue X", none, .revenue⟩,
    ⟨str "y", str "Y", none, .neutral⟩],
   [⟨str "A", str "B", 10, none, none⟩, ⟨str "A", str "B", 5, none, none⟩,
    ⟨str "B", str "A", 7, none, none⟩, ⟨str "C", str "C", 1, none, none⟩,
    ⟨str "Revenue X", str "Y", 3, none, none⟩]⟩

/-- Sum of the values of the candidate links declaring a given
(source, target) pair — the aggregation the spec describes. -/
def pairSum (ls : List SankeyLink) (s t : Str) : ℚ :=
  ((ls.filter (fun x => decide (x.source = s ∧ x.target = t))).map SankeyLink.value).sum

/-! ### Claim theorems -/

/-- C1: for every input string, if `parseDSL` returns a non-null graph, its
links — read as directed edges over node ids — contain no self-loop and no
directed cycle. -/
theorem c1_parse_acyclic (text : Str) (g : SankeyData) (h : parseDSL text = some g) :
    (∀ l ∈ g.links, l.source ≠ l.target) ∧ Acyclic g.links := by
  obtain ⟨_, hl⟩ := parseDSL_eq h
  rw [hl]
  obtain ⟨ha, hs⟩ := dagFilter_props (aggregate (rawState text).links)
  exact ⟨hs, ha⟩

theorem c1_parse_acyclic_witness :
    (∀ l ∈ gRevenueProfit.links, l.source ≠ l.target) ∧ Acyclic gRevenueProfit.links :=
  c1_parse_acyclic (str "Revenue [100] Profit") gRevenueProfit (by decide)

/-- C4: the cycle-removal pass admits the aggregated edges in first-occurrence
order; a candidate edge `(s, t)` is rejected exactly when `s = t` or a
directed path from `t` to `s` already exists among the previously accepted
edges; rejected edges are dropped and later edges are still considered (the
accepted links form a sublist of the candidates); in particular
`"A [10] B\nB [10] A"` retains exactly the first edge. -/
theorem c4_dag_admission :
    (∀ (pre : List SankeyLink) (e : SankeyLink),
        ((e.source = e.target ∨
            Relation.ReflTransGen (stepRel (dagFilter pre)) e.target e.source) →
          dagFilter (pre ++ [e]) = dagFilter pre) ∧
        (¬(e.source = e.target ∨
            Relation.ReflTransGen (stepRel (dagFilter pre)) e.target e.source) →
          dagFilter (pre ++ [e]) = dagFilter pre ++ [e])) ∧
      (∀ ls : List SankeyLink, (dagFilter ls).Sublist ls) ∧
      parseDSL (str "A [10] B\nB [10] A") = some gFirstEdgeOnly := by
  refine ⟨?_, dagFilter_sublist, by decide⟩
  intro pre e
  constructor
  · intro hrej
    rw [dagFilter_append_singleton, dagStep_eq_of_reject hrej]
  · intro hacc
    rw [dagFilter_append_singleton, dagStep_eq_of_accept hacc]

theorem c4_dag_admission_witness :
    dagFilter ([(⟨str "a", str "b", 10, none, none⟩ : SankeyLink)] ++
        [⟨str "b", str "a", 10, none, none⟩]) =
      dagFilter [⟨str "a", str "b", 10, none, none⟩] := by
  apply (c4_dag_admission.1 [⟨str "a", str "b", 10, none, none⟩]
    ⟨str "b", str "a", 10, none, none⟩).1
  refine Or.inr (Relation.ReflTransGen.single ?_)
  refine ⟨⟨str "a", str "b", 10, none, none⟩, ?_, rfl, rfl⟩
  have h : dagFilter [(⟨str "a", str "b", 10, none, none⟩ : SankeyLink)] =
      [⟨str "a", str "b", 10, none, none⟩] := by decide
  rw [h]
  exact List.mem_singleton_self _

/-- C6: every link in a non-null graph returned by `parseDSL` or `parseCSV`
has a strictly positive value (in the rational model, `NaN` values are the
`none` results that never produce a link): lines and rows with unparseable,
zero or negative value tokens are discarded by the per-line parsers. -/
theorem c6_positive_values :
    (∀ (text : Str) (g : SankeyData), parseDSL text = some g → ∀ l ∈ g.links, 0 < l.value) ∧
      (∀ (text : Str) (g : SankeyData), parseCSV text = some g → ∀ l ∈ g.links, 0 < l.value) := by
  constructor
  · intro text g h l hl
    obtain ⟨_, hlinks⟩ := parseDSL_eq h
    rw [hlinks] at hl
    exact aggregate_pos (rawState_inv text).2 l (dagFilter_mem hl)
  · intro text g h l hl
    obtain ⟨_, hlinks⟩ := parseCSV_eq h
    rw [hlinks] at hl
    exact (csvState_inv text).1 l hl

theorem c6_positive_values_witness :
    (∀ l ∈ gRevenueProfit.links, 0 < l.value) ∧ (∀ l ∈ gCsvHeader.links, 0 < l.value) :=
  ⟨c6_positive_values.1 (str "Revenue [100] Profit") gRevenueProfit (by decide),
   c6_positive_values.2 (str "From,To,Value\nRevenue,Profit,100\nRevenue,Expenses,50")
     gCsvHeader (by decide)⟩

/-- C10: when duplicate links merge and the stored link and the newcomer do
not both carry a previous value, only the stored value is increased — the
stored link's `previousValue` and `comparisonValue` survive unchanged and a
newcomer's comparison fields are discarded; illustrated end-to-end in both
directions. -/
theorem c10_merge_frame :
    (∀ e l : SankeyLink, ¬(e.previousValue ≠ none ∧ l.previousValue ≠ none) →
        mergeLinks e l = { e with value := e.value + l.value }) ∧
      parseDSL (str "A [100, 80] B\nA [50] B") =
        some ⟨[⟨str "a", str "A", none, .neutral⟩, ⟨str "b", str "B", none, .neutral⟩],
              [⟨str "a", str "b", 150, some 80, some (str "+25%")⟩]⟩ ∧
      parseDSL (str "A [100] B\nA [50, 40] B") =
        some ⟨[⟨str "a", str "A", none, .neutral⟩, ⟨str "b", str "B", none, .neutral⟩],
              [⟨str "a", str "b", 150, none, none⟩]⟩ := by
  refine ⟨?_, by decide, by decide⟩
  intro e l h
  obtain ⟨es, et, ev, epv, ecv⟩ := e
  obtain ⟨ls, lt, lv, lpv, lcv⟩ := l
  cases epv with
  | none => cases lpv <;> rfl
  | some p1 =>
    cases lpv with
    | none => rfl
    | some p2 => exact absurd ⟨by simp, by simp⟩ h

theorem c10_merge_frame_witness :
    mergeLinks ⟨str "a", str "b", 100, some 80, some (str "+25%")⟩
        ⟨str "a", str "b", 50, none, none⟩ =
      ⟨str "a", str "b", 150, some 80, some (str "+25%")⟩ := by
  rw [c10_merge_frame.1 ⟨str "a", str "b", 100, some 80, some (str "+25%")⟩
    ⟨str "a", str "b", 50, none, none⟩ (by decide)]
  decide

/-- C5 (amended): at most one link with a given (source, target) pair appears
in any `parseDSL` result, and each final link's value is the sum of the
values of the parsed lines whose concatenated key `source + "|" + target`
equals the link's key (for ids not containing `|` this is exactly the
(source, target) pair); `"Revenue [100] Profit\nRevenue [50] Profit"` yields
one link of value 150. -/
theorem c5_aggregation :
    (∀ (text : Str) (g : SankeyData), parseDSL text = some g →
        g.links.Pairwise (fun a b => ¬(a.source = b.source ∧ a.target = b.target)) ∧
          ∀ l ∈ g.links, l.value = keySum (rawState text).links (aggKey l)) ∧
      parseDSL (str "Revenue [100] Profit\nRevenue [50] Profit") = some gAggregated := by
  refine ⟨?_, by decide⟩
  intro text g h
  obtain ⟨_, hlinks⟩ := parseDSL_eq h
  constructor
  · rw [hlinks]
    have hp := (aggregate_pairwise (rawState text).links).sublist
      (dagFilter_sublist (aggregate (rawState text).links))
    refine hp.imp ?_
    intro a b hne hc
    apply hne
    unfold aggKey
    rw [hc.1, hc.2]
  · intro l hl
    rw [hlinks] at hl
    exact aggregate_value_eq_keySum (dagFilter_mem hl)

theorem c5_aggregation_witness :
    gAggregated.links.Pairwise (fun a b => ¬(a.source = b.source ∧ a.target = b.target)) ∧
      ∀ l ∈ gAggregated.links,
        l.value = keySum (rawState (str "Revenue [100] Profit\nRevenue [50] Profit")).links (aggKey l) :=
  (c5_aggregation.1 (str "Revenue [100] Profit\nRevenue [50] Profit") gAggregated (by decide))

/-- C5 counterexample: on `"A|B [10] C\nA [20] B|C"` the two distinct pairs
`(a|b, c)` and `(a, b|c)` share the aggregation key, so the surviving link of
pair `(a|b, c)` has value 30 while the lines declaring that pair sum to 10 —
the claim's per-pair sum fails. -/
theorem c5_aggregation_counterexample :
    parseDSL (str "A|B [10] C\nA [20] B|C") = some gBarCollision ∧
      ¬(∀ l ∈ gBarCollision.links,
          l.value = pairSum (rawState (str "A|B [10] C\nA [20] B|C")).links l.source l.target) :=
  ⟨by decide, by decide⟩

/-- C8 (amended): `parseDSL` deduplicates nodes by their exact display name —
no two nodes in the result share a display name, and every node's id is the
derived slug of its name; distinct display names deriving the same id produce
distinct nodes sharing that id. -/
theorem c8_node_registry (text : Str) (g : SankeyData) (h : parseDSL text = some g) :
    (g.nodes.map SankeyNode.name).Nodup ∧ ∀ n ∈ g.nodes, n.id = slugId n.name := by
  obtain ⟨hnodes, _⟩ := parseDSL_eq h
  obtain ⟨⟨h1, h2⟩, _⟩ := rawState_inv text
  rw [hnodes]
  exact ⟨h1, fun n hn => (h2 n hn).1⟩

theorem c8_node_registry_witness :
    (gRevenueProfit.nodes.map SankeyNode.name).Nodup ∧
      ∀ n ∈ gRevenueProfit.nodes, n.id = slugId n.name :=
  c8_node_registry (str "Revenue [100] Profit") gRevenueProfit (by decide)

/-- C8 counterexample: `"Revenue [100] Profit\nREVENUE [50] Profit"` yields
three nodes, two of which (`Revenue` and `REVENUE`) share the derived id
`revenue` — nodes are not deduplicated by derived id. -/
theorem c8_node_registry_counterexample :
    parseDSL (str "Revenue [100] Profit\nREVENUE [50] Profit") = some gDupIds ∧
      ¬(gDupIds.nodes.map SankeyNode.id).Nodup :=
  ⟨by decide, by decide⟩

/-- C3 (amended): every link of a non-null `parseCSV` graph holds the display
names of registered nodes (not derived ids), and nothing else of the claim
holds: duplicates, self-loops and cycles are not filtered. -/
theorem c3_csv_names (text : Str) (g : SankeyData) (h : parseCSV text = some g) :
    ∀ l ∈ g.links, (∃ n ∈ g.nodes, n.name = l.source) ∧ (∃ n ∈ g.nodes, n.name = l.target) := by
  intro l hl
  obtain ⟨hn, hlk⟩ := parseCSV_eq h
  rw [hlk] at hl
  rw [hn]
  exact (csvState_inv text).2 l hl

theorem c3_csv_names_witness :
    (∃ n ∈ gCsvHeader.nodes, n.name = str "Revenue") ∧
      (∃ n ∈ gCsvHeader.nodes, n.name = str "Profit") :=
  c3_csv_names (str "From,To,Value\nRevenue,Profit,100\nRevenue,Expenses,50") gCsvHeader
    (by decide) ⟨str "Revenue", str "Profit", 100, none, none⟩ (by decide)

/-- C3 counterexample: on `"A,B,10\nA,B,5\nB,A,7\nC,C,1\nRevenue X,Y,3"`,
`parseCSV` returns a graph with a self-loop, a link whose source is no node's
derived id, a duplicated (source, target) pair, and a directed cycle. -/
theorem c3_csv_names_counterexample :
    parseCSV (str "A,B,10\nA,B,5\nB,A,7\nC,C,1\nRevenue X,Y,3") = some gCsvRaw ∧
      (∃ l ∈ gCsvRaw.links, l.source = l.target) ∧
      (∃ l ∈ gCsvRaw.links, ∀ n ∈ gCsvRaw.nodes, n.id ≠ l.source) ∧
      (∃ i : Fin gCsvRaw.links.length, ∃ j : Fin gCsvRaw.links.length, i ≠ j ∧
        (gCsvRaw.links.get i).source = (gCsvRaw.links.get j).source ∧
        (gCsvRaw.links.get i).target = (gCsvRaw.links.get j).target) ∧
      Relation.TransGen (stepRel gCsvRaw.links) (str "A") (str "A") := by
  refine ⟨by decide, by decide, by decide, by decide, ?_⟩
  have h1 : Relation.TransGen (stepRel gCsvRaw.links) (str "A") (str "B") :=
    Relation.TransGen.single ⟨⟨str "A", str "B", 10, none, none⟩, by decide, rfl, rfl⟩
  have h2 : stepRel gCsvRaw.links (str "B") (str "A") :=
    ⟨⟨str "B", str "A", 7, none, none⟩, by decide, rfl, rfl⟩
  exact h1.tail h2

/-! ### Substring predicates for the categorization claim -/

theorem jsStartsWith_iff : ∀ (s pre : Str), jsStartsWith s pre = true ↔ ∃ r, s = pre ++ r := by
  intro s pre
  induction pre generalizing s with
  | nil =>
    simp only [jsStartsWith, List.nil_append]
    exact ⟨fun _ => ⟨s, rfl⟩, fun _ => trivial⟩
  | cons d ds ih =>
    cases s with
    | nil =>
      simp only [jsStartsWith]
      constructor
      · intro h; cases h
      · rintro ⟨r, hr⟩; cases hr
    | cons c cs =>
      simp only [jsStartsWith, Bool.and_eq_true, beq_iff_eq, ih]
      constructor
      · rintro ⟨rfl, r, rfl⟩
        exact ⟨r, rfl⟩
      · rintro ⟨r, hr⟩
        injection hr with hr1 hr2
        exact ⟨hr1, r, hr2⟩

/-- `sub` occurs as a contiguous substring of `s`. -/
def ContainsSub (s sub : Str) : Prop := ∃ l r, s = l ++ sub ++ r

theorem jsIncludes_iff : ∀ (s sub : Str), jsIncludes s sub = true ↔ ContainsSub s sub := by
  intro s sub
  induction s with
  | nil =>
    rw [show jsIncludes [] sub = jsStartsWith [] sub from rfl, jsStartsWith_iff]
    constructor
    · rintro ⟨r, hr⟩
      exact ⟨[], r, by simpa using hr⟩
    · rintro ⟨l, r, hr⟩
      have h0 := hr.symm
      rw [List.append_eq_nil] at h0
      obtain ⟨h01, h02⟩ := h0
      rw [List.append_eq_nil] at h01
      exact ⟨[], by simp [h01.2]⟩
  | cons c cs ih =>
    rw [show jsIncludes (c :: cs) sub = (jsStartsWith (c :: cs) sub || jsIncludes cs sub) from rfl,
      Bool.or_eq_true, jsStartsWith_iff, ih]
    constructor
    · rintro (⟨r, hr⟩ | ⟨l, r, hr⟩)
      · exact ⟨[], r, by simpa using hr⟩
      · exact ⟨c :: l, r, by simp [hr]⟩
    · rintro ⟨l, r, hr⟩
      cases l with
      | nil => exact Or.inl ⟨r, by simpa using hr⟩
      | cons x xs =>
        right
        rw [List.cons_append, List.cons_append] at hr
        injection hr with hr1 hr2
        exact ⟨xs, r, hr2⟩

instance (s sub : Str) : Decidable (ContainsSub s sub) :=
  decidable_of_iff _ (jsIncludes_iff s sub)

theorem jsIncludes_false_iff (s sub : Str) :
    jsIncludes s sub = false ↔ ¬ContainsSub s sub := by
  constructor
  · intro h hc
    rw [(jsIncludes_iff s sub).mpr hc] at h
    cases h
  · intro h
    cases hb : jsIncludes s sub
    · rfl
    · exact absurd ((jsIncludes_iff s sub).mp hb) h

/-- The revenue keyword test of `categorizeNode`, at spec level. -/
def RevCond (name : Str) : Prop :=
  ContainsSub (jsToLower name) (str "revenue") ∨ ContainsSub (jsToLower name) (str "sales") ∨
    (ContainsSub (jsToLower name) (str "income") ∧ ¬ContainsSub (jsToLower name) (str "net"))

/-- The expense keyword test of `categorizeNode`, at spec level. -/
def ExpCond (name : Str) : Prop :=
  ContainsSub (jsToLower name) (str "cost") ∨ ContainsSub (jsToLower name) (str "expense") ∨
    ContainsSub (jsToLower name) (str "cogs") ∨ ContainsSub (jsToLower name) (str "tax") ∨
    ContainsSub (jsToLower name) (str "depreciation") ∨
    ContainsSub (jsToLower name) (str "amortization")

/-- The profit keyword test of `categorizeNode`, at spec level. -/
def ProfCond (name : Str) : Prop :=
  ContainsSub (jsToLower name) (str "profit") ∨ ContainsSub (jsToLower name) (str "net income") ∨
    ContainsSub (jsToLower name) (str "earnings") ∨ ContainsSub (jsToLower name) (str "ebit") ∨
    ContainsSub (jsToLower name) (str "ebitda")

instance (name : Str) : Decidable (RevCond name) := by unfold RevCond; infer_instance

instance (name : Str) : Decidable (ExpCond name) := by unfold ExpCond; infer_instance

instance (name : Str) : Decidable (ProfCond name) := by unfold ProfCond; infer_instance

theorem revCond_bool (name : Str) :
    (jsIncludes (jsToLower name) (str "revenue") || jsIncludes (jsToLower name) (str "sales") ||
      (jsIncludes (jsToLower name) (str "income") && !jsIncludes (jsToLower name) (str "net"))) = true ↔
    RevCond name := by
  simp only [Bool.or_eq_true, Bool.and_eq_true, Bool.not_eq_true', jsIncludes_iff,
    jsIncludes_false_iff, RevCond, or_assoc]

theorem expCond_bool (name : Str) :
    (jsIncludes (jsToLower name) (str "cost") || jsIncludes (jsToLower name) (str "expense") ||
      jsIncludes (jsToLower name) (str "cogs") || jsIncludes (jsToLower name) (str "tax") ||
      jsIncludes (jsToLower name) (str "depreciation") ||
      jsIncludes (jsToLower name) (str "amortization")) = true ↔ ExpCond name := by
  simp only [Bool.or_eq_true, jsIncludes_iff, ExpCond, or_assoc]

theorem profCond_bool (name : Str) :
    (jsIncludes (jsToLower name) (str "profit") || jsIncludes (jsToLower name) (str "net income") ||
      jsIncludes (jsToLower name) (str "earnings") || jsIncludes (jsToLower name) (str "ebit") ||
      jsIncludes (jsToLower name) (str "ebitda")) = true ↔ ProfCond name := by
  simp only [Bool.or_eq_true, jsIncludes_iff, ProfCond, or_assoc]

/-- C9 (amended): `categorizeNode` matches keywords case-insensitively with
priority revenue → expense → profit → neutral (the code tests revenue
first, not expense first), where the revenue test is `revenue`, `sales`, or
`income` without `net`; consequently "Sales Tax", which matches both a
revenue keyword and an expense keyword, is categorized revenue. -/
theorem c9_categorize_priority :
    (∀ name : Str,
        (RevCond name → categorizeNode name = NodeCategory.revenue) ∧
        (¬RevCond name → ExpCond name → categorizeNode name = NodeCategory.expense) ∧
        (¬RevCond name → ¬ExpCond name → ProfCond name → categorizeNode name = NodeCategory.profit) ∧
        (¬RevCond name → ¬ExpCond name → ¬ProfCond name →
          categorizeNode name = NodeCategory.neutral)) ∧
      categorizeNode (str "Sales Tax") = NodeCategory.revenue := by
  refine ⟨?_, by decide⟩
  intro name
  unfold categorizeNode
  refine ⟨?_, ?_, ?_, ?_⟩
  · intro hR
    rw [if_pos ((revCond_bool name).mpr hR)]
  · intro hnR hE
    rw [if_neg (fun hc => hnR ((revCond_bool name).mp hc)),
      if_pos ((expCond_bool name).mpr hE)]
  · intro hnR hnE hP
    rw [if_neg (fun hc => hnR ((revCond_bool name).mp hc)),
      if_neg (fun hc => hnE ((expCond_bool name).mp hc)),
      if_pos ((profCond_bool name).mpr hP)]
  · intro hnR hnE hnP
    rw [if_neg (fun hc => hnR ((revCond_bool name).mp hc)),
      if_neg (fun hc => hnE ((expCond_bool name).mp hc)),
      if_neg (fun hc => hnP ((profCond_bool name).mp hc))]

theorem c9_categorize_priority_witness :
    categorizeNode (str "Operating Expenses") = NodeCategory.expense :=
  (c9_categorize_priority.1 (str "Operating Expenses")).2.1 (by decide) (by decide)

/-- C9 counterexample: the claim puts the expense keywords first, so it
predicts `expense` for "Sales Tax"; the code categorizes it `revenue`. -/
theorem c9_categorize_priority_counterexample :
    categorizeNode (str "Sales Tax") = NodeCategory.revenue ∧
      categorizeNode (str "Sales Tax") ≠ NodeCategory.expense :=
  ⟨by decide, by decide⟩

/-- C7: for a comparison token whose trim is non-empty, not in the
invalid-token set, does not begin with `+` or `-`, does not end with `%`,
and resolves as a numeric literal to a nonzero `p`, the resolver yields
`previousValue = p` and `comparisonLabel = sign ++ round((v-p)/p*100) ++ "%"`
with sign `+` for `v - p ≥ 0` and empty otherwise, where `round` is the
source's `toFixed(0)` (nearest integer on the magnitude, ties up, the sign
rendered separately). -/
theorem c7_comparison_formula (v p : ℚ) (tok : Str)
    (h1 : jsTrim tok ≠ [])
    (h2 : invalidComparisonToken (jsTrim tok) = false)
    (h3 : jsStartsWith (jsTrim tok) (str "+") = false)
    (h4 : jsStartsWith (jsTrim tok) (str "-") = false)
    (h5 : jsEndsWith (jsTrim tok) (str "%") = false)
    (h6 : parseNumber (jsTrim tok) = some p) (h7 : p ≠ 0) :
    parseComparisonFields v (some tok) =
      (some p,
        some ((if 0 ≤ v - p then str "+" else []) ++
          jsToFixed0 ((v - p) / p * 100) ++ str "%")) := by
  have hs : sanitizeComparisonLabel (some tok) = some (jsTrim tok) := by
    simp only [sanitizeComparisonLabel]
    rw [if_neg h1, if_neg (by simp [h2])]
  simp only [parseComparisonFields, hs]
  rw [h3, h4, h5]
  simp only [Bool.or_false, Bool.false_or, Bool.false_eq_true, if_false, h6]
  rw [if_pos h7]

theorem c7_comparison_formula_witness :
    parseComparisonFields 100 (some (str "80")) = (some 80, some (str "+25%")) :=
  (c7_comparison_formula 100 80 (str "80") (by decide) (by decide) (by decide) (by decide)
    (by decide) (by decide) (by decide)).trans (by decide)

/-! ### C2: round-trip counterexample and serialization-safety lemmas -/

/-- C2 counterexample: `"A\tB :abc\t10"` parses (tab-delimited) to a graph
with the node `B :abc`; its serialization `"A [10] B :abc"` re-parses as a
color directive (`abc` is three hex digits), so the round trip returns
`null` instead of an equivalent graph. -/
theorem c2_roundtrip_counterexample :
    (parseDSL (str "A\tB :abc\t10")).isSome = true ∧
      (parseDSL (str "A\tB :abc\t10")).bind (fun g => parseDSL (serializeToDSL g)) = none :=
  ⟨by decide, by decide⟩

theorem dropWhile_append_left {p : Char → Bool} {l : Str} (r : Str) (h : l.dropWhile p ≠ []) :
    (l ++ r).dropWhile p = l.dropWhile p ++ r := by
  induction l with
  | nil => exact absurd rfl h
  | cons c cs ih =>
    rw [List.dropWhile_cons] at h ⊢
    by_cases hc : p c = true
    · rw [if_pos hc] at h ⊢
      rw [List.cons_append, List.dropWhile_cons, if_pos hc]
      exact ih h
    · rw [if_neg hc] at h ⊢
      rw [List.cons_append, List.dropWhile_cons, if_neg hc]

theorem head?_append_left {l : Str} (r : Str) (h : l ≠ []) : (l ++ r).head? = l.head? := by
  cases l with
  | nil => exact absurd rfl h
  | cons c cs => rfl

theorem getLast?_append_left (l : Str) {r : Str} (h : r ≠ []) :
    (l ++ r).getLast? = r.getLast? := by
  rw [← List.head?_reverse, ← List.head?_reverse, List.reverse_append]
  exact head?_append_left _ (by simpa using h)

theorem jsTrim_eq_self {s : Str} (h1 : ∀ c, s.head? = some c → jsIsWs c = false)
    (h2 : ∀ c, s.getLast? = some c → jsIsWs c = false) : jsTrim s = s := by
  unfold jsTrim
  have hd : s.dropWhile jsIsWs = s := by
    cases s with
    | nil => rfl
    | cons c cs => rw [List.dropWhile_cons, if_neg (by simp [h1 c rfl])]
  rw [hd]
  have hr : s.reverse.dropWhile jsIsWs = s.reverse := by
    cases hrev : s.reverse with
    | nil => rfl
    | cons c cs =>
      have hlast : s.getLast? = some c := by
        rw [← List.head?_reverse, hrev]
        rfl
      rw [List.dropWhile_cons, if_neg (by simp [h2 c hlast])]
  rw [hr, List.reverse_reverse]

theorem jsStartsWith_false_of_head {s : Str} {c d : Char} (h : s.head? = some c)
    (hne : c ≠ d) (pre : Str) : jsStartsWith s (d :: pre) = false := by
  cases s with
  | nil => cases h
  | cons x xs =>
    injection h with h
    subst h
    simp only [jsStartsWith, Bool.and_eq_false_iff]
    exact Or.inl (by simpa using hne)

theorem colorTail_colon {t hex : Str} (h : colorTail t = some hex) : ':' ∈ t := by
  unfold colorTail at h
  split at h
  · rename_i heq
    have : ':' ∈ t.dropWhile jsIsWs := by
      rw [heq]
      exact List.mem_cons_self _ _
    exact (List.dropWhile_sublist _).subset this
  · cases h

theorem colorMatchAux_colon :
    ∀ (s acc : Str) (x : Str × Str), colorMatchAux acc s = some x → ':' ∈ s := by
  intro s
  induction s with
  | nil => intro acc x h; cases h
  | cons c cs ih =>
    intro acc x h
    unfold colorMatchAux at h
    split at h
    · split at h
      · rename_i hex heq
        exact List.mem_cons_of_mem _ (colorTail_colon heq)
      · exact List.mem_cons_of_mem _ (ih _ _ h)
    · cases h

theorem colorMatch_none_of_no_colon {s : Str} (h : ':' ∉ s) : colorMatch s = none := by
  cases hm : colorMatch s with
  | none => rfl
  | some x => exact absurd (colorMatchAux_colon s [] x hm) h

theorem takeWhile_append_sep {c0 : Str} (r : Str) (h : ']' ∉ c0) :
    (c0 ++ ']' :: r).takeWhile (fun c => !(c == ']')) = c0 := by
  induction c0 with
  | nil => simp [List.takeWhile_cons]
  | cons c cs ih =>
    rw [List.cons_append, List.takeWhile_cons, if_pos ?_]
    · rw [ih (fun hc => h (List.mem_cons_of_mem _ hc))]
    · simp only [Bool.not_eq_true', beq_eq_false_iff_ne]
      intro hc
      exact h (hc ▸ List.mem_cons_self _ _)

theorem dropWhile_append_sep {c0 : Str} (r : Str) (h : ']' ∉ c0) :
    (c0 ++ ']' :: r).dropWhile (fun c => !(c == ']')) = ']' :: r := by
  induction c0 with
  | nil => simp [List.dropWhile_cons]
  | cons c cs ih =>
    rw [List.cons_append, List.dropWhile_cons, if_pos ?_]
    · exact ih (fun hc => h (List.mem_cons_of_mem _ hc))
    · simp only [Bool.not_eq_true', beq_eq_false_iff_ne]
      intro hc
      exact h (hc ▸ List.mem_cons_self _ _)

theorem dropWhile_ws_of_head {s : Str} (h : ∀ c, s.head? = some c → jsIsWs c = false) :
    s.dropWhile jsIsWs = s := by
  cases s with
  | nil => rfl
  | cons c cs => rw [List.dropWhile_cons, if_neg (by simp [h c rfl])]

theorem flowTail_concat {c0 T : Str} (hc0 : c0 ≠ []) (hc0b : ']' ∉ c0) (hT : T ≠ [])
    (hTh : ∀ ch, T.head? = some ch → jsIsWs ch = false) (hTd : T.all jsDot = true) :
    flowTail (' ' :: '[' :: (c0 ++ ']' :: ' ' :: T)) = some (c0, T) := by
  have h1 : List.dropWhile jsIsWs (' ' :: '[' :: (c0 ++ ']' :: ' ' :: T)) =
      '[' :: (c0 ++ ']' :: ' ' :: T) := by
    rw [List.dropWhile_cons, if_pos (by decide), List.dropWhile_cons, if_neg (by decide)]
  have h2 : List.dropWhile jsIsWs (' ' :: T) = T := by
    rw [List.dropWhile_cons, if_pos (by decide)]
    exact dropWhile_ws_of_head hTh
  unfold flowTail
  rw [h1]
  simp only [takeWhile_append_sep _ hc0b, dropWhile_append_sep _ hc0b]
  rw [if_neg hc0, h2, if_neg hT, if_pos hTd]

theorem mem_of_head?Str {l : Str} {x : Char} (h : l.head? = some x) : x ∈ l := by
  cases l with
  | nil => cases h
  | cons c cs =>
    injection h with h
    rw [← h]
    exact List.mem_cons_self _ _

theorem mem_of_getLast?Str {l : Str} {x : Char} (h : l.getLast? = some x) : x ∈ l := by
  rw [← List.head?_reverse] at h
  exact List.mem_reverse.mp (mem_of_head?Str h)

theorem flowTail_none_of_mid {cs : Str} (R : Str) (hcs : cs ≠ []) (hb : '[' ∉ cs)
    (hl : ∀ ch, cs.getLast? = some ch → jsIsWs ch = false) :
    flowTail (cs ++ R) = none := by
  have hne : cs.dropWhile jsIsWs ≠ [] := by
    intro hd
    rw [List.dropWhile_eq_nil_iff] at hd
    cases hx : cs.getLast? with
    | none => exact hcs (List.getLast?_eq_none_iff.mp hx)
    | some x =>
      have hmem : x ∈ cs := mem_of_getLast?Str hx
      have hws := hd x hmem
      rw [hl x hx] at hws
      cases hws
  unfold flowTail
  rw [dropWhile_append_left _ hne]
  cases hd : cs.dropWhile jsIsWs with
  | nil => exact absurd hd hne
  | cons x xs =>
    have hx : x ≠ '[' := by
      intro hc
      apply hb
      rw [← hc] at *
      exact (List.dropWhile_sublist _).subset (hd ▸ List.mem_cons_self _ _)
    split
    · rename_i heq
      rw [List.cons_append] at heq
      injection heq with heq1
      exact absurd heq1 hx
    · rfl

theorem flowMatchAux_concat :
    ∀ (S acc c0 T : Str), S ≠ [] → '[' ∉ S →
      (∀ ch, S.getLast? = some ch → jsIsWs ch = false) →
      (∀ ch ∈ S, jsDot ch = true) →
      c0 ≠ [] → ']' ∉ c0 → T ≠ [] → (∀ ch, T.head? = some ch → jsIsWs ch = false) →
      T.all jsDot = true →
      flowMatchAux acc (S ++ ' ' :: '[' :: (c0 ++ ']' :: ' ' :: T)) =
        some (acc.reverse ++ S, c0, T) := by
  intro S
  induction S with
  | nil => intro acc c0 T h; exact absurd rfl h
  | cons c cs ih =>
    intro acc c0 T _ hSb hSl hSd hc0 hc0b hT hTh hTd
    have hcd : jsDot c = true := hSd c (List.mem_cons_self _ _)
    rw [List.cons_append]
    by_cases hcs : cs = []
    · subst hcs
      unfold flowMatchAux
      rw [if_pos hcd, List.nil_append, flowTail_concat hc0 hc0b hT hTh hTd]
      simp
    · have hl' : ∀ ch, cs.getLast? = some ch → jsIsWs ch = false := by
        intro ch hch
        apply hSl
        rw [show (c :: cs) = [c] ++ cs from rfl, getLast?_append_left _ hcs]
        exact hch
      have hb' : '[' ∉ cs := fun hm => hSb (List.mem_cons_of_mem _ hm)
      have hd' : ∀ ch ∈ cs, jsDot ch = true := fun ch hm => hSd ch (List.mem_cons_of_mem _ hm)
      have hfail : flowTail (cs ++ ' ' :: '[' :: (c0 ++ ']' :: ' ' :: T)) = none :=
        flowTail_none_of_mid _ hcs hb' hl'
      unfold flowMatchAux
      rw [if_pos hcd]
      simp only [hfail]
      rw [ih (c :: acc) c0 T hcs hb' hl' hd' hc0 hc0b hT hTh hTd]
      simp

/-- The bracket-flow regex on a serialized flow line: the lazy source group
is exactly the serialized source name. -/
theorem flowMatch_concat {S c0 T : Str} (hS : S ≠ []) (hSb : '[' ∉ S)
    (hSl : ∀ ch, S.getLast? = some ch → jsIsWs ch = false)
    (hSd : ∀ ch ∈ S, jsDot ch = true)
    (hc0 : c0 ≠ []) (hc0b : ']' ∉ c0) (hT : T ≠ [])
    (hTh : ∀ ch, T.head? = some ch → jsIsWs ch = false)
    (hTd : T.all jsDot = true) :
    flowMatch (S ++ ' ' :: '[' :: (c0 ++ ']' :: ' ' :: T)) = some (S, c0, T) := by
  have h := flowMatchAux_concat S [] c0 T hS hSb hSl hSd hc0 hc0b hT hTh hTd
  simpa [flowMatch] using h

/-! ### Character inventory of serialized numbers -/

/-- Characters a serialized number may contain: a minus sign, a decimal
point, or a decimal digit. -/
def numChar (c : Char) : Prop :=
  c = '-' ∨ c = '.' ∨ ∃ d, d < 10 ∧ c = Char.ofNat (48 + d)

theorem numChar_facts {c : Char} (h : numChar c) :
    jsIsWs c = false ∧ c ≠ ':' ∧ c ≠ '[' ∧ c ≠ ']' ∧ c ≠ ',' ∧ c ≠ '\n' := by
  rcases h with rfl | rfl | ⟨d, hd, rfl⟩
  · decide
  · decide
  · interval_cases d <;> decide

theorem natToStrAux_chars :
    ∀ (fuel n : ℕ) (c : Char), c ∈ natToStrAux fuel n →
      ∃ d, d < 10 ∧ c = Char.ofNat (48 + d) := by
  intro fuel
  induction fuel with
  | zero => intro n c h; cases h
  | succ f ih =>
    intro n c h
    unfold natToStrAux at h
    split at h
    · rename_i hn
      rcases List.mem_singleton.mp h with rfl
      exact ⟨n, hn, rfl⟩
    · rcases List.mem_append.mp h with h1 | h1
      · exact ih _ _ h1
      · rcases List.mem_singleton.mp h1 with rfl
        exact ⟨n % 10, Nat.mod_lt _ (by decide), rfl⟩

theorem natToStrAux_ne_nil (f n : ℕ) : natToStrAux (f + 1) n ≠ [] := by
  unfold natToStrAux
  split
  · simp
  · simp

theorem natToStr_ne_nil (n : ℕ) : natToStr n ≠ [] := natToStrAux_ne_nil n n

theorem fracDigits_chars :
    ∀ (fuel : ℕ) (f : ℚ), 0 ≤ f → f < 1 →
      ∀ c ∈ fracDigits fuel f, ∃ d, d < 10 ∧ c = Char.ofNat (48 + d) := by
  intro fuel
  induction fuel with
  | zero => intro f _ _ c h; cases h
  | succ fl ih =>
    intro f h0 h1 c h
    unfold fracDigits at h
    split at h
    · cases h
    · rcases List.mem_cons.mp h with rfl | h2
      · refine ⟨(⌊f * 10⌋).toNat, ?_, rfl⟩
        have hf0 : (0 : ℤ) ≤ ⌊f * 10⌋ := Int.floor_nonneg.mpr (mul_nonneg h0 (by norm_num))
        have hf1 : ⌊f * 10⌋ < 10 := by
          rw [Int.floor_lt]
          push_cast
          nlinarith
        omega
      · have hle := Int.floor_le (f * 10)
        have hlt := Int.lt_floor_add_one (f * 10)
        exact ih _ (by linarith) (by linarith) c h2

theorem numToString_chars (q : ℚ) : ∀ c ∈ numToString q, numChar c := by
  intro c h
  unfold numToString at h
  simp only [List.mem_append] at h
  rcases h with (h | h) | h
  · split at h
    · rcases List.mem_singleton.mp h with rfl
      exact Or.inl rfl
    · cases h
  · exact Or.inr (Or.inr (natToStrAux_chars _ _ _ h))
  · split at h
    · cases h
    · rcases List.mem_cons.mp h with rfl | h2
      · exact Or.inr (Or.inl rfl)
      · have hle := Int.floor_le (|q|)
        have hlt := Int.lt_floor_add_one (|q|)
        exact Or.inr (Or.inr (fracDigits_chars 30 _ (by linarith) (by linarith) c h2))

theorem numToString_ne_nil (q : ℚ) : numToString q ≠ [] := by
  unfold numToString
  intro h
  simp only [List.append_eq_nil] at h
  exact natToStr_ne_nil _ h.1.2

/-- Bundle of the string-level facts about a serialized number used by the
round-trip proof. -/
theorem numToString_facts (q : ℚ) :
    numToString q ≠ [] ∧
    (∀ c, (numToString q).head? = some c → jsIsWs c = false) ∧
    (∀ c, (numToString q).getLast? = some c → jsIsWs c = false) ∧
    ':' ∉ numToString q ∧ '[' ∉ numToString q ∧ ']' ∉ numToString q ∧
    '\n' ∉ numToString q ∧
    jsTrim (numToString q) = numToString q ∧
    strContainsChar (numToString q) ',' = false := by
  have hchars := numToString_chars q
  have hne := numToString_ne_nil q
  have hws : ∀ c ∈ numToString q, jsIsWs c = false := fun c hc =>
    (numChar_facts (hchars c hc)).1
  have hcomma : ',' ∉ numToString q := fun hc =>
    (numChar_facts (hchars _ hc)).2.2.2.2.1 rfl
  refine ⟨hne, fun c hc => hws c (mem_of_head?Str hc),
    fun c hc => hws c (mem_of_getLast?Str hc),
    fun hc => (numChar_facts (hchars _ hc)).2.1 rfl,
    fun hc => (numChar_facts (hchars _ hc)).2.2.1 rfl,
    fun hc => (numChar_facts (hchars _ hc)).2.2.2.1 rfl,
    fun hc => (numChar_facts (hchars _ hc)).2.2.2.2.2 rfl,
    jsTrim_eq_self (fun c hc => hws c (mem_of_head?Str hc))
      (fun c hc => hws c (mem_of_getLast?Str hc)), ?_⟩
  cases hsc : strContainsChar (numToString q) ',' with
  | false => rfl
  | true =>
    exfalso
    rcases List.any_eq_true.mp hsc with ⟨d, hd, hdc⟩
    exact hcomma ((eq_of_beq hdc) ▸ hd)

/-! ### Splitting the joined serialization back into its lines -/

theorem splitChar_ne_nil (sep : Char) (s : Str) : splitChar sep s ≠ [] := by
  cases s with
  | nil => simp [splitChar]
  | cons c cs =>
    show (match splitChar sep cs with
          | [] => [[c]]
          | t :: ts => if c = sep then [] :: t :: ts else (c :: t) :: ts) ≠ []
    cases h : splitChar sep cs with
    | nil => simp
    | cons t ts =>
      show (if c = sep then [] :: t :: ts else (c :: t) :: ts) ≠ []
      split <;> simp

theorem splitChar_no_sep {sep : Char} {s : Str} (h : sep ∉ s) : splitChar sep s = [s] := by
  induction s with
  | nil => rfl
  | cons c cs ih =>
    have hcs : sep ∉ cs := fun hm => h (List.mem_cons_of_mem _ hm)
    have hc : c ≠ sep := fun hc => h (hc ▸ List.mem_cons_self _ _)
    unfold splitChar
    rw [ih hcs]
    simp [hc]

theorem splitChar_append_sep {sep : Char} : ∀ {a : Str}, sep ∉ a → ∀ rest : Str,
    splitChar sep (a ++ sep :: rest) = a :: splitChar sep rest := by
  intro a
  induction a with
  | nil =>
    intro _ rest
    rw [List.nil_append]
    show (match splitChar sep rest with
          | [] => [[sep]]
          | t :: ts => if sep = sep then [] :: t :: ts else (sep :: t) :: ts) =
        [] :: splitChar sep rest
    cases h : splitChar sep rest with
    | nil => exact absurd h (splitChar_ne_nil sep rest)
    | cons t ts => simp
  | cons c cs ih =>
    intro h rest
    have hcs : sep ∉ cs := fun hm => h (List.mem_cons_of_mem _ hm)
    have hc : c ≠ sep := fun hc0 => h (hc0 ▸ List.mem_cons_self _ _)
    rw [List.cons_append]
    show (match splitChar sep (cs ++ sep :: rest) with
          | [] => [[c]]
          | t :: ts => if c = sep then [] :: t :: ts else (c :: t) :: ts) =
        (c :: cs) :: splitChar sep rest
    rw [ih hcs rest]
    simp [hc]

/-- `split('\n')` undoes `join('\n')` on a nonempty list of newline-free
lines. -/
theorem split_join {sep : Char} : ∀ ls : List Str, ls ≠ [] → (∀ l ∈ ls, sep ∉ l) →
    splitChar sep (joinChar sep ls) = ls := by
  intro ls
  induction ls with
  | nil => intro h; exact absurd rfl h
  | cons l ls ih =>
    intro _ hmem
    cases ls with
    | nil =>
      simp only [joinChar]
      exact splitChar_no_sep (hmem l (List.mem_cons_self _ _))
    | cons l2 ls2 =>
      simp only [joinChar]
      rw [splitChar_append_sep (hmem l (List.mem_cons_self _ _)) _]
      rw [ih (by simp) (fun x hx => hmem x (List.mem_cons_of_mem _ hx))]

/-! ### Serialization-safe names and the node registry rebuilt by re-parsing -/

/-- Conditions on a node display name under which its serialized flow line
re-parses verbatim: nonempty with non-whitespace first and last characters
(so the line trims to itself), not starting with `/` or `#` (so the line is
not a comment), all characters in the regex dot class (no line terminator:
`\n` would split the line and `\r` would make the flow regex's lazy groups
unmatchable), and containing no `:` (would re-parse as a color directive)
and no `[` (would shift the flow-bracket match). -/
def nameSafe (S : Str) : Bool :=
  (match S.head? with
   | some c => !jsIsWs c && !(c == '/') && !(c == '#')
   | none => false) &&
  (match S.getLast? with
   | some c => !jsIsWs c
   | none => false) &&
  S.all jsDot &&
  !S.any (fun c => c == ':' || c == '[')

theorem nameSafe_spec {S : Str} (h : nameSafe S = true) :
    S ≠ [] ∧ (∀ c, S.head? = some c → jsIsWs c = false ∧ c ≠ '/' ∧ c ≠ '#') ∧
    (∀ c, S.getLast? = some c → jsIsWs c = false) ∧
    ':' ∉ S ∧ '[' ∉ S ∧ '\n' ∉ S ∧ jsTrim S = S ∧
    (∀ c ∈ S, jsDot c = true) ∧ S.all jsDot = true := by
  unfold nameSafe at h
  rw [Bool.and_eq_true, Bool.and_eq_true, Bool.and_eq_true] at h
  obtain ⟨⟨⟨h1, h2⟩, hdot⟩, h3⟩ := h
  have hne : S ≠ [] := by
    intro hS
    subst hS
    cases h1
  have hhead : ∀ c, S.head? = some c → jsIsWs c = false ∧ c ≠ '/' ∧ c ≠ '#' := by
    intro c hc
    rw [hc] at h1
    simp only [Bool.and_eq_true, Bool.not_eq_true', beq_eq_false_iff_ne] at h1
    exact ⟨h1.1.1, h1.1.2, h1.2⟩
  have hlast : ∀ c, S.getLast? = some c → jsIsWs c = false := by
    intro c hc
    rw [hc] at h2
    simpa using h2
  have hdot' : ∀ c ∈ S, jsDot c = true := by
    intro c hc
    exact List.all_eq_true.mp hdot c hc
  have hany : ∀ c ∈ S, ¬(c = ':' ∨ c = '[') := by
    intro c hc hor
    rw [Bool.not_eq_true', List.any_eq_false] at h3
    have h4 := h3 c hc
    rcases hor with rfl | rfl <;> simp at h4
  have hnl : '\n' ∉ S := by
    intro hc
    have := hdot' _ hc
    simp [jsDot] at this
  exact ⟨hne, hhead, hlast, fun hc => hany _ hc (Or.inl rfl),
    fun hc => hany _ hc (Or.inr rfl), hnl,
    jsTrim_eq_self (fun c hc => (hhead c hc).1) hlast, hdot', hdot⟩

/-- Registration of one endpoint name in the node map with no color entry
(the `if (!nodes.has(name)) nodes.set(name, createNode(...))` pattern). -/
def regName (acc : List SankeyNode) (name : Str) : List SankeyNode :=
  if (findNodeByName acc name).isSome then acc else acc ++ [createNode name none]

/-- Node registration performed by one re-parsed flow line. -/
def regPair (ns : List SankeyNode) (acc : List SankeyNode) (l : SankeyLink) : List SankeyNode :=
  regName (regName acc (resolveName ns l.source)) (resolveName ns l.target)

/-- The node list rebuilt by re-parsing the serialized flow lines. -/
def nodesFromLinks (ns : List SankeyNode) (links : List SankeyLink) : List SankeyNode :=
  links.foldl (regPair ns) []

/-- The link rebuilt by re-parsing one serialized flow line. -/
def reLink (ns : List SankeyNode) (l : SankeyLink) : SankeyLink :=
  ⟨slugId (resolveName ns l.source), slugId (resolveName ns l.target), l.value, none, none⟩

/-- Every node of the list is `createNode` of its own name with no color. -/
def NodesCanon (ns : List SankeyNode) : Prop :=
  ∀ n ∈ ns, n = createNode n.name none

theorem regName_canon {acc : List SankeyNode} (h : NodesCanon acc) (name : Str) :
    NodesCanon (regName acc name) := by
  unfold regName
  split
  · exact h
  · intro n hn
    rcases List.mem_append.mp hn with h1 | h1
    · exact h n h1
    · rcases List.mem_singleton.mp h1 with rfl
      rfl

theorem foldl_regPair_canon (ns : List SankeyNode) :
    ∀ (ls : List SankeyLink) (acc : List SankeyNode), NodesCanon acc →
      NodesCanon (ls.foldl (regPair ns) acc) := by
  intro ls
  induction ls with
  | nil => intro acc h; exact h
  | cons l ls ih => intro acc h; exact ih _ (regName_canon (regName_canon h _) _)

theorem findNodeByName_append_left {acc acc2 : List SankeyNode} {name : Str} {n : SankeyNode}
    (h : findNodeByName acc name = some n) :
    findNodeByName (acc ++ acc2) name = some n := by
  unfold findNodeByName at *
  rw [List.find?_append, h]
  rfl

theorem findNodeByName_regName_some (acc : List SankeyNode) (name : Str) :
    (findNodeByName (regName acc name) name).isSome := by
  unfold regName
  cases h : findNodeByName acc name with
  | some n => simp [h]
  | none =>
    rw [if_neg (by simp [h])]
    unfold findNodeByName at *
    rw [List.find?_append, h]
    simp [createNode, List.find?]

theorem findNodeByName_regName_left {acc : List SankeyNode} {name : Str} (m : Str)
    {n : SankeyNode} (h : findNodeByName acc name = some n) :
    findNodeByName (regName acc m) name = some n := by
  unfold regName
  split
  · exact h
  · exact findNodeByName_append_left h

theorem findNodeByName_canon_id {acc : List SankeyNode} (hc : NodesCanon acc) {name : Str}
    {n : SankeyNode} (h : findNodeByName acc name = some n) :
    n.id = slugId name ∧ n.name = name := by
  unfold findNodeByName at h
  have hmem : n ∈ acc := List.mem_of_find?_eq_some h
  have hp := List.find?_some h
  have hname : n.name = name := by simpa using hp
  have hcn := hc n hmem
  refine ⟨?_, hname⟩
  rw [hcn]
  simp [createNode, hname]

/-- With no colors registered and a canonical node list, `addFlow` registers
the two endpoint names colorless and appends the link with the slug ids. -/
theorem addFlow_eq {st : ParseState} (hcol : st.colors = []) (hcanon : NodesCanon st.nodes)
    (f : ParsedFlowLine) :
    addFlow st f =
      ⟨regName (regName st.nodes f.sourceName) f.targetName,
       st.links ++ [⟨slugId f.sourceName, slugId f.targetName, f.value,
         f.previousValue, f.comparisonValue⟩],
       st.colors⟩ := by
  have hgetS : mapGet st.colors f.sourceName = none := by rw [hcol]; rfl
  have hgetT : mapGet st.colors f.targetName = none := by rw [hcol]; rfl
  have hcanon2 : NodesCanon (regName (regName st.nodes f.sourceName) f.targetName) :=
    regName_canon (regName_canon hcanon _) _
  rcases Option.isSome_iff_exists.mp (findNodeByName_regName_some st.nodes f.sourceName)
    with ⟨n1, hn1⟩
  have hn1' : findNodeByName (regName (regName st.nodes f.sourceName) f.targetName)
      f.sourceName = some n1 := findNodeByName_regName_left _ hn1
  rcases Option.isSome_iff_exists.mp
    (findNodeByName_regName_some (regName st.nodes f.sourceName) f.targetName)
    with ⟨n2, hn2⟩
  have hid1 : n1.id = slugId f.sourceName := (findNodeByName_canon_id hcanon2 hn1').1
  have hid2 : n2.id = slugId f.targetName := (findNodeByName_canon_id hcanon2 hn2).1
  unfold addFlow
  simp only [hgetS, hgetT]
  rw [show (if (findNodeByName st.nodes f.sourceName).isSome then st.nodes
        else st.nodes ++ [createNode f.sourceName none]) = regName st.nodes f.sourceName
      from rfl]
  rw [show (if (findNodeByName (regName st.nodes f.sourceName) f.targetName).isSome
        then regName st.nodes f.sourceName
        else regName st.nodes f.sourceName ++ [createNode f.targetName none])
      = regName (regName st.nodes f.sourceName) f.targetName from rfl]
  simp only [hn1', hn2, hid1, hid2]

/-- Shape of a serialized flow line carrying neither a previous value nor a
comparison label. -/
theorem serializeLink_none {ns : List SankeyNode} {l : SankeyLink}
    (hpv : l.previousValue = none) (hcv : l.comparisonValue = none) :
    serializeLink ns l = resolveName ns l.source ++ ' ' :: '[' ::
      (numToString l.value ++ ']' :: ' ' :: resolveName ns l.target) := by
  have e1 : str " [" = [' ', '['] := rfl
  have e2 : str "] " = [']', ' '] := rfl
  simp [serializeLink, hpv, hcv, e1, e2, List.append_assoc]

/-- Re-parsing one well-shaped flow line: `procLine` recognizes it as a
bracket flow with the given source name, value text and target name. -/
theorem procLine_flow_line (st : ParseState) {S c0 T : Str}
    (hS : nameSafe S = true) (hT : nameSafe T = true)
    (hc0ne : c0 ≠ []) (hc0head : ∀ c, c0.head? = some c → jsIsWs c = false)
    (hc0last : ∀ c, c0.getLast? = some c → jsIsWs c = false)
    (hc0colon : ':' ∉ c0) (hc0rb : ']' ∉ c0) (hc0trim : jsTrim c0 = c0)
    (hc0comma : strContainsChar c0 ',' = false)
    {v : ℚ} (hnum : parseNumber c0 = some v) (hpos : 0 < v) :
    procLine st (S ++ ' ' :: '[' :: (c0 ++ ']' :: ' ' :: T)) =
      addFlow st ⟨S, T, v, none, none⟩ := by
  obtain ⟨hSne, hShead, hSlast, hScolon, hSbr, hSnl, hStrim, hSdot, hSall⟩ := nameSafe_spec hS
  obtain ⟨hTne, hThead, hTlast, hTcolon, hTbr, hTnl, hTtrim, hTdot, hTall⟩ := nameSafe_spec hT
  have hlineR : S ++ ' ' :: '[' :: (c0 ++ ']' :: ' ' :: T) =
      (S ++ ' ' :: '[' :: (c0 ++ [']', ' '])) ++ T := by simp
  have hne : S ++ ' ' :: '[' :: (c0 ++ ']' :: ' ' :: T) ≠ [] := by
    simp [hSne]
  have hhead : ∀ c, (S ++ ' ' :: '[' :: (c0 ++ ']' :: ' ' :: T)).head? = some c →
      jsIsWs c = false ∧ c ≠ '/' ∧ c ≠ '#' := by
    intro c hc
    rw [head?_append_left _ hSne] at hc
    exact hShead c hc
  have hlast : ∀ c, (S ++ ' ' :: '[' :: (c0 ++ ']' :: ' ' :: T)).getLast? = some c →
      jsIsWs c = false := by
    intro c hc
    rw [hlineR, getLast?_append_left _ hTne] at hc
    exact hTlast c hc
  have htrim : jsTrim (S ++ ' ' :: '[' :: (c0 ++ ']' :: ' ' :: T)) =
      S ++ ' ' :: '[' :: (c0 ++ ']' :: ' ' :: T) :=
    jsTrim_eq_self (fun c hc => (hhead c hc).1) hlast
  have hheadx : ∃ x, (S ++ ' ' :: '[' :: (c0 ++ ']' :: ' ' :: T)).head? = some x ∧
      jsIsWs x = false ∧ x ≠ '/' ∧ x ≠ '#' := by
    cases hS0 : S with
    | nil => exact absurd hS0 hSne
    | cons x xs =>
      refine ⟨x, rfl, ?_⟩
      exact hShead x (by rw [hS0]; rfl)
  obtain ⟨x, hx, hxws, hxsl, hxhash⟩ := hheadx
  have hempty : (S ++ ' ' :: '[' :: (c0 ++ ']' :: ' ' :: T)).isEmpty = false := by
    cases hS0 : S ++ ' ' :: '[' :: (c0 ++ ']' :: ' ' :: T) with
    | nil => exact absurd hS0 hne
    | cons y ys => rfl
  have hsl : jsStartsWith (S ++ ' ' :: '[' :: (c0 ++ ']' :: ' ' :: T)) (str "//") = false :=
    jsStartsWith_false_of_head hx hxsl ['/']
  have hhash : jsStartsWith (S ++ ' ' :: '[' :: (c0 ++ ']' :: ' ' :: T)) (str "#") = false :=
    jsStartsWith_false_of_head hx hxhash []
  have hcolon : ':' ∉ S ++ ' ' :: '[' :: (c0 ++ ']' :: ' ' :: T) := by
    intro hm
    simp only [List.mem_append, List.mem_cons] at hm
    rcases hm with h | h | h | h | h | h | h
    · exact hScolon h
    · exact absurd h (by decide)
    · exact absurd h (by decide)
    · exact hc0colon h
    · exact absurd h (by decide)
    · exact absurd h (by decide)
    · exact hTcolon h
  have hcm : colorMatch (S ++ ' ' :: '[' :: (c0 ++ ']' :: ' ' :: T)) = none :=
    colorMatch_none_of_no_colon hcolon
  have hfm : flowMatch (S ++ ' ' :: '[' :: (c0 ++ ']' :: ' ' :: T)) = some (S, c0, T) :=
    flowMatch_concat hSne hSbr hSlast hSdot hc0ne hc0rb hTne
      (fun c hc => (hThead c hc).1) hTall
  have hbf : bracketFlow S c0 T = some ⟨S, T, v, none, none⟩ := by
    simp only [bracketFlow, hStrim, hTtrim, hc0trim, hc0comma, hnum, if_pos hpos]
    simp
  simp only [procLine, htrim, hempty, hsl, hhash, hcm, hfm, hbf]
  simp

/-- Per-link preconditions of the round-trip fold. -/
def LinkSafe (ns : List SankeyNode) (l : SankeyLink) : Prop :=
  l.previousValue = none ∧ l.comparisonValue = none ∧ 0 < l.value ∧
  parseNumber (numToString l.value) = some l.value ∧
  nameSafe (resolveName ns l.source) = true ∧ nameSafe (resolveName ns l.target) = true

/-- Folding `procLine` over the serialized flow lines rebuilds the node
registry from the resolved names and reproduces the links with slug ids. -/
theorem foldl_procLine_serialize (ns : List SankeyNode) :
    ∀ (ls : List SankeyLink) (st : ParseState), st.colors = [] → NodesCanon st.nodes →
      (∀ l ∈ ls, LinkSafe ns l) →
      (ls.map (serializeLink ns)).foldl procLine st =
        ⟨ls.foldl (regPair ns) st.nodes, st.links ++ ls.map (reLink ns), st.colors⟩ := by
  intro ls
  induction ls with
  | nil => intro st hcol hcanon _; simp
  | cons l ls ih =>
    intro st hcol hcanon hsafe
    obtain ⟨hpv, hcv, hpos, hnum, hS, hT⟩ := hsafe l (List.mem_cons_self _ _)
    obtain ⟨hNne, hNhead, hNlast, hNcolon, hNlb, hNrb, hNnl, hNtrim, hNcomma⟩ :=
      numToString_facts l.value
    rw [List.map_cons, List.foldl_cons, serializeLink_none hpv hcv,
      procLine_flow_line st hS hT hNne hNhead hNlast hNcolon hNrb hNtrim hNcomma hnum hpos,
      addFlow_eq hcol hcanon]
    dsimp only
    have hih := ih ⟨regName (regName st.nodes (resolveName ns l.source)) (resolveName ns l.target),
        st.links ++ [({ source := slugId (resolveName ns l.source),
                        target := slugId (resolveName ns l.target),
                        value := l.value, previousValue := none,
                        comparisonValue := none } : SankeyLink)], st.colors⟩ hcol
        (regName_canon (regName_canon hcanon _) _)
        (fun x hx => hsafe x (List.mem_cons_of_mem _ hx))
    rw [hih]
    simp [regPair, reLink, List.append_assoc]

/-! ### Aggregation and cycle removal are the identity on canonical links -/

theorem aggUpd_not_mem :
    ∀ (acc : List (Str × SankeyLink)) (l : SankeyLink), aggKey l ∉ acc.map Prod.fst →
      aggUpd acc l = acc ++ [(aggKey l, l)] := by
  intro acc
  induction acc with
  | nil => intro l _; rfl
  | cons p rest ih =>
    intro l h
    have hk : p.1 ≠ aggKey l := by
      intro hk
      exact h (hk ▸ List.mem_map_of_mem Prod.fst (List.mem_cons_self _ _))
    cases p with
    | mk k e =>
      unfold aggUpd
      rw [if_neg hk, ih l (fun hm => h (List.mem_cons_of_mem _ hm))]
      rfl

theorem foldl_aggUpd_nodup :
    ∀ (ls : List SankeyLink) (acc : List (Str × SankeyLink)),
      (∀ l ∈ ls, aggKey l ∉ acc.map Prod.fst) → (ls.map aggKey).Nodup →
      ls.foldl aggUpd acc = acc ++ ls.map (fun l => (aggKey l, l)) := by
  intro ls
  induction ls with
  | nil => intro acc _ _; simp
  | cons l ls ih =>
    intro acc hfresh hnod
    rw [List.foldl_cons, aggUpd_not_mem acc l (hfresh l (List.mem_cons_self _ _))]
    rw [List.map_cons, List.nodup_cons] at hnod
    rw [ih _ ?_ hnod.2]
    · simp [List.append_assoc]
    · intro x hx
      rw [List.map_append]
      intro hm
      rcases List.mem_append.mp hm with hm1 | hm1
      · exact hfresh x (List.mem_cons_of_mem _ hx) hm1
      · rcases List.mem_singleton.mp hm1 with hm2
        have : aggKey x ∈ ls.map aggKey := List.mem_map_of_mem aggKey hx
        rw [show ((aggKey l, l) : Str × SankeyLink).1 = aggKey l from rfl] at hm2
        exact hnod.1 (hm2 ▸ this)

/-- When the `source|target` keys are pairwise distinct, aggregation returns
the link list unchanged. -/
theorem aggregate_eq_self_of_nodup {ls : List SankeyLink}
    (h : (ls.map aggKey).Nodup) : aggregate ls = ls := by
  unfold aggregate
  rw [foldl_aggUpd_nodup ls [] (by intro l _ hm; cases hm) h]
  rw [List.nil_append, List.map_map]
  rw [show (Prod.snd ∘ fun l : SankeyLink => (aggKey l, l)) = id from rfl, List.map_id]

/-- With every node colorless, `serializeToDSL` emits exactly the flow
lines. -/
theorem serializeToDSL_no_colors {g : SankeyData} (hcanon : NodesCanon g.nodes) :
    serializeToDSL g = joinChar '\n' (g.links.map (serializeLink g.nodes)) := by
  have hfil : g.nodes.filter
      (fun n => match n.color with | some c => !c.isEmpty | none => false) = [] := by
    rw [List.filter_eq_nil_iff]
    intro n hn
    rw [hcanon n hn]
    simp [createNode]
  simp only [serializeToDSL, hfil]
  simp

/-- A link whose endpoints resolve against a canonical node registry is sent
to itself by the re-parse. -/
theorem reLink_eq_self {ns : List SankeyNode} (hcanon : NodesCanon ns) {l : SankeyLink}
    (hs : (findNodeById ns l.source).isSome = true)
    (ht : (findNodeById ns l.target).isSome = true)
    (hpv : l.previousValue = none) (hcv : l.comparisonValue = none) :
    reLink ns l = l := by
  have hgen : ∀ id : Str, (findNodeById ns id).isSome = true → slugId (resolveName ns id) = id := by
    intro id hid
    rcases Option.isSome_iff_exists.mp hid with ⟨n, hn⟩
    have hn' := hn
    unfold findNodeById at hn'
    have hmem : n ∈ ns := List.mem_of_find?_eq_some hn'
    have hp := List.find?_some hn'
    have hidn : n.id = id := by simpa using hp
    have hcn := hcanon n hmem
    unfold resolveName
    rw [hn]
    rw [show slugId n.name = (createNode n.name none).id from rfl, ← hcn, hidn]
  have h1 := hgen l.source hs
  have h2 := hgen l.target ht
  cases l with
  | mk s t v pv cv =>
    simp only [reLink]
    simp only at h1 h2 hpv hcv
    rw [h1, h2, hpv, hcv]

/-- Conditions under which a graph survives the serialize/re-parse round
trip unchanged: nonempty node and link lists, safe display names, colorless
canonical nodes rebuilt exactly by re-registration from the links, links
with no previous value or comparison label, positive values whose decimal
rendering re-parses to the same rational, resolvable endpoints, pairwise
distinct `source|target` keys, and stability under the cycle filter. -/
def SerializationSafe (g : SankeyData) : Prop :=
  g.nodes ≠ [] ∧ g.links ≠ [] ∧
  (∀ n ∈ g.nodes, nameSafe n.name = true) ∧
  (∀ l ∈ g.links,
     l.previousValue = none ∧ l.comparisonValue = none ∧ 0 < l.value ∧
     parseNumber (numToString l.value) = some l.value ∧
     (findNodeById g.nodes l.source).isSome = true ∧
     (findNodeById g.nodes l.target).isSome = true) ∧
  g.nodes = nodesFromLinks g.nodes g.links ∧
  (g.links.map aggKey).Nodup ∧
  dagFilter g.links = g.links

instance (g : SankeyData) : Decidable (SerializationSafe g) := by
  unfold SerializationSafe
  infer_instance

theorem map_eq_self_of_eq {α : Type} (f : α → α) :
    ∀ ls : List α, (∀ x ∈ ls, f x = x) → ls.map f = ls := by
  intro ls
  induction ls with
  | nil => intro _; rfl
  | cons a as ih =>
    intro h
    rw [List.map_cons, h a (List.mem_cons_self _ _),
      ih (fun x hx => h x (List.mem_cons_of_mem _ hx))]

/-- C2 (amended): the round trip `parseDSL ∘ serializeToDSL` is the identity
on serialization-safe graphs — canonical colorless graphs whose display
names avoid the DSL metacharacters (`:`, `[`), comment starters, edge
whitespace and line terminators (`\n` would split the serialized line, and
a `\r` inside a name makes the flow regex's dot-class lazy groups
unmatchable, so the line would be dropped), whose positive values re-parse
from their decimal rendering, whose `source|target` keys are pairwise
distinct and whose links pass the cycle filter unchanged.  (As stated over
all parseDSL outputs the claim is false; see the separate counterexample
where the round trip returns null.) -/
theorem c2_roundtrip (g : SankeyData) (h : SerializationSafe g) :
    parseDSL (serializeToDSL g) = some g := by
  obtain ⟨hnne, hlne, hnames, hlinks, hnodes, hagg, hdag⟩ := h
  have hcanon : NodesCanon g.nodes := by
    rw [hnodes]
    exact foldl_regPair_canon _ _ [] (fun n hn => absurd hn (List.not_mem_nil n))
  have hressafe : ∀ id : Str, (findNodeById g.nodes id).isSome = true →
      nameSafe (resolveName g.nodes id) = true := by
    intro id hid
    rcases Option.isSome_iff_exists.mp hid with ⟨n, hn⟩
    have hn' := hn
    unfold findNodeById at hn'
    unfold resolveName
    rw [hn]
    exact hnames n (List.mem_of_find?_eq_some hn')
  have hsafe : ∀ l ∈ g.links, LinkSafe g.nodes l := by
    intro l hl
    obtain ⟨hpv, hcv, hpos, hnum, hfs, hft⟩ := hlinks l hl
    exact ⟨hpv, hcv, hpos, hnum, hressafe _ hfs, hressafe _ hft⟩
  have hser : serializeToDSL g = joinChar '\n' (g.links.map (serializeLink g.nodes)) :=
    serializeToDSL_no_colors hcanon
  have hnlf : ∀ line ∈ g.links.map (serializeLink g.nodes), '\n' ∉ line := by
    intro line hline
    rcases List.mem_map.mp hline with ⟨l, hl, rfl⟩
    obtain ⟨hpv, hcv, _hpos, _hnum, hS, hT⟩ := hsafe l hl
    rw [serializeLink_none hpv hcv]
    obtain ⟨_, _, _, _, _, hSnl, _, _, _⟩ := nameSafe_spec hS
    obtain ⟨_, _, _, _, _, hTnl, _, _, _⟩ := nameSafe_spec hT
    have hNnl : '\n' ∉ numToString l.value := (numToString_facts l.value).2.2.2.2.2.2.1
    intro hm
    simp only [List.mem_append, List.mem_cons] at hm
    rcases hm with h | h | h | h | h | h | h
    · exact hSnl h
    · exact absurd h (by decide)
    · exact absurd h (by decide)
    · exact hNnl h
    · exact absurd h (by decide)
    · exact absurd h (by decide)
    · exact hTnl h
  have hsplit : splitChar '\n' (serializeToDSL g) = g.links.map (serializeLink g.nodes) := by
    rw [hser]
    apply split_join
    · intro hmap
      exact hlne (List.map_eq_nil_iff.mp hmap)
    · exact hnlf
  have hraw : rawState (serializeToDSL g) = ⟨g.nodes, g.links, []⟩ := by
    unfold rawState
    rw [hsplit]
    rw [foldl_procLine_serialize g.nodes g.links ⟨[], [], []⟩ rfl
      (fun n hn => absurd hn (List.not_mem_nil n)) hsafe]
    have hmap : g.links.map (reLink g.nodes) = g.links := by
      apply map_eq_self_of_eq
      intro l hl
      obtain ⟨hpv, hcv, _hpos, _hnum, hfs, hft⟩ := hlinks l hl
      exact reLink_eq_self hcanon hfs hft hpv hcv
    rw [hmap]
    rw [show List.foldl (regPair g.nodes) ([] : List SankeyNode) g.links =
        nodesFromLinks g.nodes g.links from rfl, ← hnodes]
    rfl
  simp only [parseDSL, hraw]
  rw [if_neg ?_]
  · rw [aggregate_eq_self_of_nodup hagg, hdag]
  · rintro (hh | hh)
    · exact hnne (by simpa using hh)
    · exact hlne (by simpa using hh)

/-- A concrete serialization-safe graph for the round-trip witness. -/
def gRound : SankeyData :=
  { nodes := [createNode (str "Alpha") none, createNode (str "Beta") none,
              createNode (str "Gamma") none],
    links := [⟨str "alpha", str "beta", 10, none, none⟩,
              ⟨str "beta", str "gamma", 5, none, none⟩] }

theorem c2_roundtrip_witness :
    SerializationSafe gRound ∧ parseDSL (serializeToDSL gRound) = some gRound :=
  ⟨by decide, c2_roundtrip gRound (by decide)⟩

end Sankey
